import Mathlib

/-!
Verification of the Dashboard-Nexen ingestion/normalization pipeline and the
query-template engine (`app/utils/filters.py`, `app/utils/transforms.py`).

Python strings are modelled as `List Char`.  Python's `str.replace` (all
non-overlapping occurrences, scanned left to right) is modelled by a
fuel-indexed structural recursion `replaceAllF`, invoked with fuel equal to
the string length.  Python `dict`s (which preserve insertion order) are
modelled as association lists; a dict-comprehension insert that overwrites
an existing key in place is modelled by `dictInsert`.

Modelling notes, stated once here:
* `str.strip()` is modelled over the ASCII whitespace characters; `.lower()`
  is modelled by `Char.toLower` (ASCII).  Both sides of every comparison use
  the same model, so no claim verdict depends on the non-ASCII cases.
* Python floats are modelled exactly, as an inductive `PyFloat` of either an
  exact rational value or one of the non-finite values inf, neg-inf, nan;
  rounding of decimal literals to binary is not modelled (both sides of every
  numeric comparison go through the same exact model).
-/

/-- The ASCII whitespace characters stripped by `str.strip()` (model). -/
def pyWs (c : Char) : Bool :=
  c = ' ' ∨ c = '\t' ∨ c = '\n' ∨ c = '\r' ∨ c = '\x0b' ∨ c = '\x0c'

/-- `str.strip()`: drop whitespace from both ends. -/
def pyStrip (s : List Char) : List Char :=
  ((s.dropWhile pyWs).reverse.dropWhile pyWs).reverse

/-- `str.lower()` (ASCII model). -/
def lowerStr (s : List Char) : List Char :=
  s.map Char.toLower

/-- `sql.lstrip('﻿')`: drop every leading byte-order mark. -/
def dropBom (s : List Char) : List Char :=
  s.dropWhile (fun c => c = '﻿')

/-- The word that a safe query must start with (`ALLOWED_SQL_PREFIX`). -/
def selectWord : List Char := ("select").data

/-- The banned substrings of `is_safe_select` (`filters.py` line 17). -/
def bannedToks : List (List Char) :=
  [(";").data, (" drop ").data, (" delete ").data, (" update ").data,
   (" insert ").data, (" alter ").data, (" create ").data]

/-- `is_safe_select` (`filters.py` lines 7-18), translated line by line:
strip BOM and whitespace, strip one trailing semicolon and re-strip,
lowercase, require the `select` word as a prefix and no banned substring. -/
def isSafeSelect (sql : List Char) : Bool :=
  let s0 := pyStrip (dropBom sql)
  let s1 := if s0.getLast? = some ';' then pyStrip s0.dropLast else s0
  let lower := lowerStr s1
  if selectWord <+: lower then
    decide (∀ b ∈ bannedToks, ¬ b <:+: lower)
  else false

/-- The normalization described by claim C1: strip a leading byte-order mark
and surrounding whitespace, then one trailing semicolon (if present) together
with the whitespace it had set apart. -/
def specNormalize (s : List Char) : List Char :=
  let t := pyStrip (dropBom s)
  if t.getLast? = some ';' then pyStrip t.dropLast else t

/-- The safety-screen property in the words of claim C1: the lowercased
normalized text starts with `select` and contains no banned token. -/
def SafeSelectSpec (s : List Char) : Prop :=
  selectWord <+: lowerStr (specNormalize s) ∧
    ∀ b ∈ bannedToks, ¬ b <:+: lowerStr (specNormalize s)

/-- Python's `str.replace(pat, repl)` for a non-empty `pat`: scan left to
right, replacing non-overlapping occurrences greedily.  `fuel` bounds the
recursion; it is consumed at least as fast as the string. -/
def replaceAllF : Nat → List Char → List Char → List Char → List Char
  | 0, s, _, _ => s
  | _ + 1, [], _, _ => []
  | fuel + 1, c :: rest, pat, repl =>
    if pat ≠ [] ∧ pat <+: (c :: rest) then
      repl ++ replaceAllF fuel ((c :: rest).drop pat.length) pat repl
    else
      c :: replaceAllF fuel rest pat repl

/-- `s.replace(pat, repl)` with just enough fuel. -/
def replaceAll (s pat repl : List Char) : List Char :=
  replaceAllF s.length s pat repl

-- sanity examples for the replace model (they mirror CPython behaviour)
example : replaceAll ("aab").data ("ab").data ("b").data = ("ab").data := by decide
example : replaceAll ("ababa").data ("aba").data ("c").data = ("cba").data := by decide
example : replaceAll ("aaaa").data ("aa").data ("a").data = ("aa").data := by decide

/-- A Python float: an exact finite value, or one of the non-finite
values.  A finite value is a scaled decimal `mant / 10 ^ exp`, kept in the
canonical form produced by `mkFin` (either `exp = 0`, or `mant` not
divisible by 10), so value equality is constructor equality for every value
the pipeline builds.  Decimal literals are taken at face value on both
sides of every comparison, so no claim verdict depends on binary
rounding. -/
inductive PyFloat where
  | fin (mant : ℤ) (exp : ℕ)
  | inf
  | ninf
  | nan
deriving DecidableEq, Repr

/-- Strip factors of ten into the exponent, canonicalizing `mant / 10^exp`
(fuelled by the exponent, which strictly decreases). -/
def stripTens : ℕ → ℤ → ℕ → ℤ × ℕ
  | 0, m, e => (m, e)
  | fuel + 1, m, e => if e ≠ 0 ∧ m % 10 = 0 then stripTens fuel (m / 10) (e - 1) else (m, e)

/-- Canonical finite float `m / 10^e`. -/
def mkFin (m : ℤ) (e : ℕ) : PyFloat :=
  let r := stripTens e m e
  .fin r.1 r.2

/-- The exact rational value of a finite float. -/
def finVal (m : ℤ) (e : ℕ) : ℚ := (m : ℚ) / 10 ^ e

/-- A Python `datetime.date`. -/
structure PyDate where
  year : ℕ
  month : ℕ
  day : ℕ
deriving DecidableEq, Repr

/-- A Python `datetime.datetime` (microseconds always 0 in this pipeline). -/
structure PyDateTime where
  year : ℕ
  month : ℕ
  day : ℕ
  hour : ℕ
  minute : ℕ
  second : ℕ
deriving DecidableEq, Repr

/-- The universe of cell and filter values the pipeline handles: `None`,
`str`, `int`, `float`, `date`, `datetime`.  (pandas/numpy scalar types,
which the source handles behind optional imports, are outside the model.) -/
inductive Val where
  | vnone
  | vstr (s : List Char)
  | vint (n : ℤ)
  | vfloat (f : PyFloat)
  | vdate (d : PyDate)
  | vdt (d : PyDateTime)
deriving DecidableEq, Repr

/-- Python truthiness for the modelled values (used by the `x or y` idiom in
`materialize_curated`). -/
def Val.truthy : Val → Bool
  | .vnone => false
  | .vstr s => ¬ s = []
  | .vint n => ¬ n = 0
  | .vfloat (.fin m _) => ¬ m = 0
  | .vfloat _ => true
  | .vdate _ => true
  | .vdt _ => true

/-- Python `a or b` restricted to a value result. -/
def pyOr (a b : Val) : Val := if a.truthy then a else b

/-- The `x or None` idiom: a falsy value (empty string, 0) becomes `None`. -/
def orNone (a : Val) : Val := if a.truthy then a else .vnone

/-- Decimal digit character. -/
def digitChar (n : ℕ) : Char := Char.ofNat (48 + n % 10)

def natDigitsAux : ℕ → ℕ → List Char
  | 0, _ => []
  | fuel + 1, n => if n < 10 then [digitChar n] else natDigitsAux fuel (n / 10) ++ [digitChar (n % 10)]

/-- Decimal rendering of a natural number. -/
def renderNat (n : ℕ) : List Char := natDigitsAux (n + 1) n

/-- Decimal rendering of an integer (Python `str(int)`). -/
def renderInt (n : ℤ) : List Char :=
  if n < 0 then '-' :: renderNat n.natAbs else renderNat n.natAbs

def padLeftZero (k : ℕ) (s : List Char) : List Char :=
  List.replicate (k - s.length) '0' ++ s

def pad2 (n : ℕ) : List Char := padLeftZero 2 (renderNat n)

def pad4 (n : ℕ) : List Char := padLeftZero 4 (renderNat n)

/-- `date.isoformat()` / `str(date)`: `YYYY-MM-DD`. -/
def isoOfDate (d : PyDate) : List Char :=
  pad4 d.year ++ [('-')] ++ pad2 d.month ++ [('-')] ++ pad2 d.day

/-- `datetime.isoformat()`: `YYYY-MM-DDTHH:MM:SS` (microsecond 0 omitted). -/
def isoOfDateTime (d : PyDateTime) : List Char :=
  pad4 d.year ++ [('-')] ++ pad2 d.month ++ [('-')] ++ pad2 d.day ++ [('T')] ++
    pad2 d.hour ++ [(':')] ++ pad2 d.minute ++ [(':')] ++ pad2 d.second

/-- `str(datetime)`: like isoformat with a space separator. -/
def strOfDateTime (d : PyDateTime) : List Char :=
  pad4 d.year ++ [('-')] ++ pad2 d.month ++ [('-')] ++ pad2 d.day ++ [(' ')] ++
    pad2 d.hour ++ [(':')] ++ pad2 d.minute ++ [(':')] ++ pad2 d.second

/-- Python `repr`/`str` of a finite float, modelled as the canonical
decimal rendering of the exact value, always with a fractional part, as
Python prints (`125.0`, `1234.5`, `0.05`). -/
def renderFin (m : ℤ) (e : ℕ) : List Char :=
  let sign : List Char := if m < 0 then [('-')] else []
  let digs := padLeftZero (e + 1) (renderNat m.natAbs)
  let fp := digs.drop (digs.length - e)
  sign ++ digs.take (digs.length - e) ++ [('.')] ++ (if fp = [] then [('0')] else fp)

/-- Python `str()` on the modelled values. -/
def pyStr : Val → List Char
  | .vnone => ("None").data
  | .vstr s => s
  | .vint n => renderInt n
  | .vfloat (.fin m e) => renderFin m e
  | .vfloat .inf => ("inf").data
  | .vfloat .ninf => ("-inf").data
  | .vfloat .nan => ("nan").data
  | .vdate d => isoOfDate d
  | .vdt d => strOfDateTime d

/-- The null-sentinel strings recognized by the coercion functions. -/
def sentinelStrs : List (List Char) :=
  [("nan").data, ("nat").data, ("none").data, ("null").data]

def digitVal (c : Char) : ℕ := c.toNat - 48

def natOfDigits (s : List Char) : ℕ :=
  s.foldl (fun a c => 10 * a + digitVal c) 0

/-- Parse a non-empty all-digits string. -/
def parseNat? (s : List Char) : Option ℕ :=
  if s ≠ [] ∧ s.all Char.isDigit then some (natOfDigits s) else none

/-- Decimal literal fragment of Python `float()`: `digits`, `digits.digits`,
`.digits` or `digits.` (at least one digit overall).  Exponents and
underscore separators are outside the modelled fragment. -/
def parseDecimal (s : List Char) : Option (ℕ × ℕ) :=
  match s.splitOn '.' with
  | [ip] => if ip ≠ [] ∧ ip.all Char.isDigit then some (natOfDigits ip, 0) else none
  | [ip, fp] =>
    if ip ++ fp ≠ [] ∧ (ip ++ fp).all Char.isDigit then
      some (natOfDigits (ip ++ fp), fp.length)
    else none
  | _ => none

/-- Python `float(str)` on the modelled fragment: optional sign, then
`inf`, `infinity`, `nan` (case-insensitive) or a decimal literal. -/
def parsePyFloat (s : List Char) : Option PyFloat :=
  let t := lowerStr s
  let sg : Bool := t.head? = some '-'
  let u := match t with
    | '+' :: r => r
    | '-' :: r => r
    | r => r
  if u = ("inf").data ∨ u = ("infinity").data then some (if sg then .ninf else .inf)
  else if u = ("nan").data then some .nan
  else
    match parseDecimal u with
    | some me => some (mkFin (if sg then -(me.1 : ℤ) else (me.1 : ℤ)) me.2)
    | none => none

/-- The string path of `_to_float` (`transforms.py` lines 125-131): strip,
sentinel check, then the comma/dot normalization and `float()`.  Note the
two single-character `str.replace` calls are pointwise, so they are modelled
by `filter`/`map`. -/
def floatFromStr (t0 : List Char) : Option PyFloat :=
  let t := pyStrip t0
  if lowerStr t ∈ sentinelStrs then none
  else if ',' ∈ t ∧ t.count ',' = 1 ∧ '.' ∈ t then
    parsePyFloat ((t.filter (fun c => ¬ c = '.')).map (fun c => if c = ',' then '.' else c))
  else
    parsePyFloat (t.map (fun c => if c = ',' then '.' else c))

/-- `_to_float` (`transforms.py` lines 115-131). -/
def toFloat : Val → Option PyFloat
  | .vnone => none
  | .vstr [] => none
  | .vfloat (.fin m e) => floatFromStr (renderFin m e)
  | .vfloat _ => none
  | v => floatFromStr (pyStr v)

/-- Truncation toward zero of `m / 10^e`, as Python `int()` on a float. -/
def truncF (m : ℤ) (e : ℕ) : ℤ := m.tdiv ((10 : ℤ) ^ e)

/-- The string path of `_to_int` (`transforms.py` lines 142-150): strip,
sentinel check, then remove every dot, turn the comma into a dot, and take
`int(float(...))`; a non-finite float makes `int()` raise, hence `none`. -/
def intFromStr (t0 : List Char) : Option ℤ :=
  let t := pyStrip t0
  if lowerStr t ∈ sentinelStrs then none
  else
    match parsePyFloat ((t.filter (fun c => ¬ c = '.')).map (fun c => if c = ',' then '.' else c)) with
    | some (.fin m e) => some (truncF m e)
    | some _ => none
    | none => none

/-- `_to_int` (`transforms.py` lines 133-150). -/
def toInt : Val → Option ℤ
  | .vnone => none
  | .vstr [] => none
  | .vfloat (.fin m e) => intFromStr (renderFin m e)
  | .vfloat _ => none
  | v => intFromStr (pyStr v)

def isLeap (y : ℕ) : Bool := (y % 4 = 0 ∧ ¬ y % 100 = 0) ∨ y % 400 = 0

def daysInMonth (y m : ℕ) : ℕ :=
  if m = 2 then (if isLeap y then 29 else 28)
  else if m ∈ [4, 6, 9, 11] then 30
  else 31

/-- Validity check performed by `datetime.datetime`'s constructor. -/
def validYMD (y m d : ℕ) : Bool :=
  1 ≤ y ∧ y ≤ 9999 ∧ 1 ≤ m ∧ m ≤ 12 ∧ 1 ≤ d ∧ d ≤ daysInMonth y m

/-- Modelled fragment of `dateutil.parser.parse` with the default parser
info (`dayfirst=False`): purely numeric `a/b/c` strings whose last group
has four digits (the year).  With `a ≤ 12` the default labelling
month=`a`, day=`b` is used; otherwise dateutil swaps to day=`a`,
month=`b`.  A date rejected by `datetime()` makes parsing raise, which
`_to_dt` turns into `None`.  Strings outside this fragment are modelled as
unparsable; the claims only exercise the fragment. -/
def parseDateFrag (s : List Char) : Option PyDateTime :=
  match s.splitOn '/' with
  | [a, b, c] =>
    match parseNat? a, parseNat? b, parseNat? c with
    | some na, some nb, some ny =>
      if a.length ≤ 2 ∧ b.length ≤ 2 ∧ c.length = 4 then
        if na ≤ 12 then
          if validYMD ny na nb then some ⟨ny, na, nb, 0, 0, 0⟩ else none
        else if nb ≤ 12 then
          if validYMD ny nb na then some ⟨ny, nb, na, 0, 0, 0⟩ else none
        else none
      else none
    | _, _, _ => none
  | _ => none

/-- The string path of `_to_dt` (`transforms.py` lines 106-112). -/
def dtFromStr (t0 : List Char) : Option PyDateTime :=
  let s := pyStrip t0
  if lowerStr s ∈ sentinelStrs then none else parseDateFrag s

/-- `_to_dt` (`transforms.py` lines 86-112); the pandas branches only
concern pandas values, which are outside the modelled universe (a float
`nan` input reaches the sentinel check with the same `None` outcome). -/
def toDt : Val → Option PyDateTime
  | .vnone => none
  | .vstr [] => none
  | .vdt d => some d
  | .vdate d => some ⟨d.year, d.month, d.day, 0, 0, 0⟩
  | v => dtFromStr (pyStr v)

-- sanity examples for the coercion models
example : toFloat (.vstr ("1.234,56").data) = some (.fin 123456 2) := by decide
example : toFloat (.vstr ("1234.56").data) = some (.fin 123456 2) := by decide
example : toFloat (.vstr (" NaN ").data) = none := by decide
example : toFloat (.vstr ("inf").data) = some .inf := by decide
example : toInt (.vstr ("1234.56").data) = some 123456 := by decide
example : toInt (.vstr ("12,5").data) = some 12 := by decide
example : toInt (.vstr ("-12,5").data) = some (-12) := by decide
example : toDt (.vstr ("31/12/2023").data) = some ⟨2023, 12, 31, 0, 0, 0⟩ := by decide
example : toDt (.vstr ("01/02/2023").data) = some ⟨2023, 1, 2, 0, 0, 0⟩ := by decide
example : toDt (.vstr ("nan").data) = none := by decide
example : toDt (.vstr ("02/31/2023").data) = none := by decide
example : toFloat (.vfloat (.fin 125 1)) = some (.fin 125 1) := by decide
example : toInt (.vfloat (.fin 125 1)) = some 125 := by decide
example : renderFin 125 1 = ("12.5").data := by decide
example : renderFin 125 0 = ("125.0").data := by decide
example : renderFin (-5) 2 = ("-0.05").data := by decide

/-- Diacritic stripping for the Latin accented letters that occur in
Brazilian spreadsheet headers (models the NFKD-normalize-then-drop-combining
step of `_norm_key`; unlisted characters are unchanged). -/
def deaccent (c : Char) : Char :=
  if c ∈ ['á', 'à', 'â', 'ã', 'ä'] then 'a'
  else if c ∈ ['Á', 'À', 'Â', 'Ã', 'Ä'] then 'A'
  else if c ∈ ['é', 'è', 'ê', 'ë'] then 'e'
  else if c ∈ ['É', 'È', 'Ê', 'Ë'] then 'E'
  else if c ∈ ['í', 'ì', 'î', 'ï'] then 'i'
  else if c ∈ ['Í', 'Ì', 'Î', 'Ï'] then 'I'
  else if c ∈ ['ó', 'ò', 'ô', 'õ', 'ö'] then 'o'
  else if c ∈ ['Ó', 'Ò', 'Ô', 'Õ', 'Ö'] then 'O'
  else if c ∈ ['ú', 'ù', 'û', 'ü'] then 'u'
  else if c ∈ ['Ú', 'Ù', 'Û', 'Ü'] then 'U'
  else if c = 'ç' then 'c'
  else if c = 'Ç' then 'C'
  else if c = 'ñ' then 'n'
  else if c = 'Ñ' then 'N'
  else c

/-- The fixpoint of `while '__' in s: s = s.replace('__', '_')`: collapse
every run of underscores to a single underscore. -/
def squashUnderscores (s : List Char) : List Char :=
  s.foldr (fun c acc => if c = '_' ∧ acc.head? = some '_' then acc else c :: acc) []

/-- `_norm_key` (`transforms.py` lines 42-53): strip diacritics, trim and
lowercase, turn the separators into underscores, collapse repeats. -/
def normKey (k : List Char) : List Char :=
  squashUnderscores
    ((lowerStr (pyStrip (k.map deaccent))).map
      (fun c => if c ∈ [' ', '/', '.', '-', '\\'] then '_' else c))

/-- `KEY_MAP` (`transforms.py` lines 13-39). -/
def keymapTable : List (List Char × List (List Char)) :=
  [ (("uf").data, [("uf").data, ("estado").data, ("state").data]),
    (("processo").data, [("processo").data, ("n_processo").data, ("num_processo").data,
      ("numero_processo").data, ("numero_do_processo").data, ("nro_processo").data]),
    (("faixa_vencimento").data, [("faixa_vencimento").data, ("faixa_de_vencimento").data,
      ("faixa").data, ("vencimento_faixa").data]),
    (("devedor").data, [("devedor").data, ("nome_devedor").data, ("devedora").data,
      ("nome").data, ("sacado").data]),
    (("cpf_cnpj").data, [("cpf_cnpj").data, ("cpf").data, ("cnpj").data, ("documento").data,
      ("cpf_cgc").data, ("cpf_cnpj_").data]),
    (("credor_code").data, [("credor_code").data, ("cod_cliente").data, ("codigo_cliente").data,
      ("id_cliente").data, ("cliente_codigo").data, ("codigo_credor").data, ("cod_credor").data,
      ("cliente_cod").data]),
    (("dt_vencimento").data, [("dt_vencimento").data, ("vencimento").data, ("data_vencimento").data]),
    (("vl_titulo").data, [("vl_titulo").data, ("valor").data, ("valor_titulo").data, ("amount").data]),
    (("situacao_processo").data, [("situacao_processo").data, ("situacao").data, ("status").data,
      ("situacao_do_processo").data]),
    (("vl_total_repasse").data, [("vl_total_repasse").data, ("valor_repasse").data, ("repasse").data]),
    (("vl_saldo").data, [("vl_saldo").data, ("saldo").data, ("valor_saldo").data, ("vl_sld").data]),
    (("dt_ultimo_credito").data, [("dt_ultimo_credito").data, ("ultimo_credito").data,
      ("dt_ult_credito").data, ("data_ultimo_credito").data]),
    (("portador").data, [("portador").data, ("portador_carteira").data]),
    (("motivo_devolucao").data, [("motivo_devolucao").data, ("motivo_da_devolucao").data,
      ("motivo_devol").data, ("motivo_dev").data, ("motivo_da_devoluacao").data]),
    (("vl_honorario_devedor").data, [("vl_honorario_devedor").data, ("honorario_devedor").data,
      ("vl_honorario").data, ("valor_honorario_devedor").data]),
    (("vl_tx_contrato").data, [("vl_tx_contrato").data, ("tx_contrato").data,
      ("taxa_contrato").data, ("vl_tx").data]),
    (("comercial").data, [("comercial").data]),
    (("cobrador").data, [("cobrador").data]),
    (("dt_encerrado").data, [("dt_encerrado").data, ("encerrado").data, ("data_encerrado").data,
      ("dt_baixa").data, ("data_baixa").data]),
    (("dias_vencidos_cadastro").data, [("dias_vencidos_no_cadastro").data,
      ("dias_vencidos_cadastro").data, ("dias_vencidos").data]),
    (("dt_cadastro").data, [("dt_cadastro").data, ("data_cadastro").data, ("created_at").data,
      ("dt_criacao").data]) ]

/-- `KEY_MAP.get(target_key, [])`. -/
def keymap (t : List Char) : List (List Char) :=
  (keymapTable.lookup t).getD []

/-- The pass-2 heuristic substring rules of `_find`
(`transforms.py` lines 63-82), per target field. -/
def heurMatch (t nk : List Char) : Prop :=
  (t = ("cpf_cnpj").data ∧
    (("cpf").data <:+: nk ∨ ("cnpj").data <:+: nk ∨ ("cpf_cgc").data <:+: nk ∨
      ("cpfcnpj").data <:+: nk)) ∨
  (t = ("devedor").data ∧
    (("devedor").data <:+: nk ∨ ("devedora").data <:+: nk ∨ ("sacado").data <:+: nk ∨
      nk = ("nome").data)) ∨
  (t = ("processo").data ∧
    (("processo").data <:+: nk ∨
      nk ∈ [("num_processo").data, ("n_processo").data, ("numero_processo").data,
        ("numero_do_processo").data, ("nro_processo").data])) ∨
  (t = ("credor_code").data ∧
    ((("cod").data <:+: nk ∧ ("cliente").data <:+: nk) ∨
      (("codigo").data <:+: nk ∧ ("cliente").data <:+: nk) ∨
      nk ∈ [("credor").data, ("cod_credor").data, ("codigo_credor").data])) ∨
  (t = ("faixa_vencimento").data ∧
    (("faixa").data <:+: nk ∧ ("venc").data <:+: nk))

instance (t nk : List Char) : Decidable (heurMatch t nk) := by
  unfold heurMatch; infer_instance

/-- Pass 1 of `_find`: exact match against the alias set or the canonical
name itself; first matching row key wins. -/
def findP1 : List (List Char × Val) → List Char → Option Val
  | [], _ => none
  | (k, v) :: rest, t =>
    if normKey k ∈ keymap t ∨ normKey k = t then some v else findP1 rest t

/-- Pass 2 of `_find`: heuristic substring match. -/
def findP2 : List (List Char × Val) → List Char → Option Val
  | [], _ => none
  | (k, v) :: rest, t =>
    if heurMatch t (normKey k) then some v else findP2 rest t

/-- `_find` (`transforms.py` lines 56-83): pass 1 over the whole row, then
pass 2; `None` when nothing matches. -/
def find (row : List (List Char × Val)) (t : List Char) : Val :=
  match findP1 row t with
  | some v => v
  | none =>
    match findP2 row t with
    | some v => v
    | none => .vnone

/-- Ordered-dict insert: an existing key keeps its position and gets the
new value, a new key is appended (Python dict semantics). -/
def dictInsert (k : List Char) (v : Val) : List (List Char × Val) → List (List Char × Val)
  | [] => [(k, v)]
  | (k', v') :: rest => if k' = k then (k', v) :: rest else (k', v') :: dictInsert k v rest

/-- The dict comprehension of `materialize_curated` line 159:
normalized-key copy of a raw row. -/
def normRow (raw : List (List Char × Val)) : List (List Char × Val) :=
  raw.foldl (fun acc kv => dictInsert (normKey kv.1) kv.2 acc) []

/-- The curated entity (`CuratedRecord` columns assigned in
`materialize_curated` lines 160-183). -/
structure CuratedRec where
  organization_id : ℤ
  credor_code : Val
  uf : Val
  processo : Val
  devedor : Val
  cpf_cnpj : Val
  faixa_vencimento : Val
  dt_vencimento : Option PyDateTime
  vl_titulo : Option PyFloat
  situacao_processo : Val
  vl_total_repasse : Option PyFloat
  vl_saldo : Option PyFloat
  dt_ultimo_credito : Option PyDateTime
  portador : Val
  motivo_devolucao : Val
  vl_honorario_devedor : Option PyFloat
  vl_tx_contrato : Option PyFloat
  comercial : Val
  cobrador : Val
  dt_encerrado : Option PyDateTime
  dias_vencidos_cadastro : Option ℤ
  dt_cadastro : Option PyDateTime
deriving DecidableEq, Repr

/-- One `CuratedRecord(...)` construction (`materialize_curated` lines
159-183): normalize the row keys, then resolve and coerce every field. -/
def buildCurated (orgId : ℤ) (credor : Val) (raw : List (List Char × Val)) : CuratedRec :=
  let row := normRow raw
  { organization_id := orgId
    credor_code := pyOr credor (find row (("credor_code").data))
    uf := orNone (find row (("uf").data))
    processo := orNone (find row (("processo").data))
    devedor := orNone (find row (("devedor").data))
    cpf_cnpj := orNone (find row (("cpf_cnpj").data))
    faixa_vencimento := orNone (find row (("faixa_vencimento").data))
    dt_vencimento := toDt (find row (("dt_vencimento").data))
    vl_titulo := toFloat (find row (("vl_titulo").data))
    situacao_processo := orNone (find row (("situacao_processo").data))
    vl_total_repasse := toFloat (find row (("vl_total_repasse").data))
    vl_saldo := toFloat (find row (("vl_saldo").data))
    dt_ultimo_credito := toDt (find row (("dt_ultimo_credito").data))
    portador := orNone (find row (("portador").data))
    motivo_devolucao := orNone (find row (("motivo_devolucao").data))
    vl_honorario_devedor := toFloat (find row (("vl_honorario_devedor").data))
    vl_tx_contrato := toFloat (find row (("vl_tx_contrato").data))
    comercial := orNone (find row (("comercial").data))
    cobrador := orNone (find row (("cobrador").data))
    dt_encerrado := toDt (find row (("dt_encerrado").data))
    dias_vencidos_cadastro := toInt (find row (("dias_vencidos_cadastro").data))
    dt_cadastro := toDt (find row (("dt_cadastro").data)) }

/-- The loop of `materialize_curated` (lines 155-193).  The database is
modelled by its observable effect: the list of flushed batches, each flush
being one `add_all` + `commit` of the buffered records. -/
def matGo (orgId : ℤ) (credor : Val) :
    List (List (List Char × Val)) → List CuratedRec → ℕ → ℕ × List (List CuratedRec)
  | [], buf, count => (count, if buf = [] then [] else [buf])
  | r :: rs, buf, count =>
    let b' := buf ++ [buildCurated orgId credor r]
    if 2000 ≤ b'.length then
      let rest := matGo orgId credor rs [] (count + 1)
      (rest.1, b' :: rest.2)
    else
      matGo orgId credor rs b' (count + 1)

/-- `materialize_curated`: returns the processed row count and the list of
flushed batches. -/
def materializeCurated (rows : List (List (List Char × Val))) (orgId : ℤ) (credor : Val) :
    ℕ × List (List CuratedRec) :=
  matGo orgId credor rows [] 0

/-- Fixed-size chunking of a list (fuelled; used to state the batching
property). -/
def chunksOfF {α : Type} : ℕ → ℕ → List α → List (List α)
  | 0, _, _ => []
  | _ + 1, _, [] => []
  | fuel + 1, n, l => l.take n :: chunksOfF fuel n (l.drop n)

def chunksOf {α : Type} (n : ℕ) (l : List α) : List (List α) :=
  chunksOfF l.length n l

/-- `_to_jsonable` (`transforms.py` lines 196-227) on the modelled values:
datetimes and dates become their ISO strings, non-finite floats become
`None`, everything else is returned unchanged. -/
def toJsonable : Val → Val
  | .vdt d => .vstr (isoOfDateTime d)
  | .vdate d => .vstr (isoOfDate d)
  | .vfloat (.fin m e) => .vfloat (.fin m e)
  | .vfloat _ => .vnone
  | v => v

/-- `_row_to_jsonable` (`transforms.py` lines 230-231). -/
def rowToJsonable (row : List (List Char × Val)) : List (List Char × Val) :=
  row.map (fun kv => (kv.1, toJsonable kv.2))

/-- A `StagingRecord` row as written by `store_staging`. -/
structure StagingRec where
  organization_id : ℤ
  raw_json : List (List Char × Val)
deriving DecidableEq, Repr

/-- `store_staging` (`transforms.py` lines 234-238): one staging record per
raw row (payload made JSON-safe), then the row count is returned. -/
def storeStaging (rows : List (List (List Char × Val))) (orgId : ℤ) :
    List StagingRec × ℕ :=
  (rows.map (fun r => { organization_id := orgId, raw_json := rowToJsonable r }), rows.length)

-- sanity examples for the resolver model
example : find [(("Cód. Cliente").data, .vstr ("77").data)] (("credor_code").data)
    = .vstr ("77").data := by decide
example : find [(("xyz").data, .vint 1)] (("uf").data) = .vnone := by decide
example : normKey (("Faixa de Vencimento").data) = ("faixa_de_vencimento").data := by decide
example : find [(("Faixa de Vencimento").data, .vint 3)] (("faixa_vencimento").data)
    = .vint 3 := by decide

/-- The `\x7b\x7btenant_id\x7d\x7d` placeholder. -/
def tenantTok : List Char := ("\x7b\x7btenant_id\x7d\x7d").data

/-- The `\x7b\x7bfrom\x7d\x7d` placeholder. -/
def fromTok : List Char := ("\x7b\x7bfrom\x7d\x7d").data

/-- The `\x7b\x7bto\x7d\x7d` placeholder. -/
def toTok : List Char := ("\x7b\x7bto\x7d\x7d").data

/-- The `\x7b\x7bdate_field\x7d\x7d` placeholder. -/
def dateTok : List Char := ("\x7b\x7bdate_field\x7d\x7d").data

/-- The `\x7b\x7bfilter:<name>\x7d\x7d` placeholder for a filter name. -/
def tokOf (k : List Char) : List Char :=
  ("\x7b\x7bfilter:").data ++ k ++ ("\x7d\x7d").data

/-- The SQL fragment spliced in for a supplied filter value. -/
def clauseOf (k : List Char) : List Char :=
  (" AND ").data ++ k ++ (" = :").data ++ k ++ (" ").data

/-- Characters allowed to survive the `date_field` sanitization
(`filters.py` line 31): alphanumeric, underscore, dot. -/
def pyIdentChar (c : Char) : Bool := c.isAlphanum ∨ c = '_' ∨ c = '.'

/-- The `date_field` substitution (`filters.py` lines 29-37). -/
def dateFieldPass (filters : List (List Char × Val)) (s : List Char) : List Char :=
  match filters.lookup (("date_field").data) with
  | none => s
  | some .vnone => s
  | some v =>
    let safe := (pyStr v).filter pyIdentChar
    replaceAll s dateTok (if safe = [] then ("dt_cadastro").data else safe)

/-- One of the `from`/`to` substitutions (`filters.py` lines 39-49): a
present non-null value becomes a bound parameter, otherwise the literal
`NULL`. -/
def rangePass (filters : List (List Char × Val)) (key tok bound : List Char)
    (s : List Char) : List Char × List (List Char × Val) :=
  match filters.lookup key with
  | some v =>
    if v = .vnone then (replaceAll s tok (("NULL").data), [])
    else (replaceAll s tok bound, [(key, v)])
  | none => (replaceAll s tok (("NULL").data), [])

/-- The filter-injection loop (`filters.py` lines 52-60), iterating over the
map entries in insertion order. -/
def filterLoop : List (List Char × Val) → List Char → List (List Char × Val) →
    List Char × List (List Char × Val)
  | [], s, params => (s, params)
  | (k, v) :: rest, s, params =>
    if k ∈ [("from").data, ("to").data, ("tenant_id").data] then
      filterLoop rest s params
    else if tokOf k <:+: s ∧ ¬ v = .vnone then
      filterLoop rest (replaceAll s (tokOf k) (clauseOf k)) (params ++ [(k, v)])
    else if tokOf k <:+: s then
      filterLoop rest (replaceAll s (tokOf k) []) params
    else
      filterLoop rest s params

/-- The substitutions preceding the filter loop (`filters.py` lines
25-49): tenant bind parameter, `date_field` identifier, `from`/`to`. -/
def prePass (sql : List Char) (filters : List (List Char × Val)) :
    List Char × List (List Char × Val) :=
  let s1 := replaceAll sql tenantTok ((":tenant_id").data)
  let s2 := dateFieldPass filters s1
  let r3 := rangePass filters (("from").data) fromTok ((":from").data) s2
  let r4 := rangePass filters (("to").data) toTok ((":to").data) r3.1
  (r4.1, r3.2 ++ r4.2)

/-- The final `tenant_id` parameter insertion (`filters.py` lines 62-63). -/
def addTenant (filters : List (List Char × Val)) (r : List Char × List (List Char × Val)) :
    List Char × List (List Char × Val) :=
  match filters.lookup (("tenant_id").data) with
  | some v => (r.1, r.2 ++ [((("tenant_id").data), v)])
  | none => r

/-- `apply_placeholders` (`filters.py` lines 21-65).  Parameters are
collected in insertion order; the input map is an association list whose
keys are distinct (a Python dict). -/
def applyPlaceholders (sql : List Char) (filters : List (List Char × Val)) :
    List Char × List (List Char × Val) :=
  addTenant filters
    (filterLoop filters (prePass sql filters).1 (prePass sql filters).2)

/-- A filter name with no brace and no space: such names cannot take part
in any placeholder-boundary interference (used to state the amended C10). -/
def NiceKey (k : List Char) : Prop :=
  ∀ c ∈ k, ¬ c = '\x7b' ∧ ¬ c = '\x7d' ∧ ¬ c = ' '

/-- The reserved names skipped by the filter-injection loop. -/
def reservedKeys : List (List Char) :=
  [("from").data, ("to").data, ("tenant_id").data]

/-- `pat` and `T` can never overlap inside a common string: at every
relative shift the two disagree inside the shared region. -/
def CannotOverlap (pat T : List Char) : Prop :=
  (∀ j, 0 < j → j < pat.length → ¬ (pat.drop j <+: T) ∧ ¬ (T <+: pat.drop j)) ∧
  (∀ j, 0 < j → j < T.length → ¬ (T.drop j <+: pat) ∧ ¬ (pat <+: T.drop j)) ∧
  (¬ (pat <+: T) ∧ ¬ (T <+: pat))

-- sanity examples for the template engine
example :
    applyPlaceholders (("SELECT x FROM t WHERE org=\x7b\x7btenant_id\x7d\x7d").data)
      [((("tenant_id").data), .vint 7)]
    = ((("SELECT x FROM t WHERE org=:tenant_id").data), [((("tenant_id").data), .vint 7)]) := by
  decide
example :
    applyPlaceholders (("A \x7b\x7bfilter:uf\x7d\x7d B").data)
      [((("tenant_id").data), .vint 1), ((("uf").data), .vstr ("SP").data)]
    = ((("A  AND uf = :uf  B").data),
       [((("uf").data), .vstr ("SP").data), ((("tenant_id").data), .vint 1)]) := by
  decide
example :
    applyPlaceholders (("A \x7b\x7bfilter:uf\x7d\x7d B").data)
      [((("tenant_id").data), .vint 1), ((("uf").data), .vnone)]
    = ((("A  B").data), [((("tenant_id").data), .vint 1)]) := by
  decide
example :
    applyPlaceholders (("A \x7b\x7bfilter:uf\x7d\x7d B").data)
      [((("tenant_id").data), .vint 1)]
    = ((("A \x7b\x7bfilter:uf\x7d\x7d B").data), [((("tenant_id").data), .vint 1)]) := by
  decide
example :
    applyPlaceholders (("\x7b\x7btenant_id\x7d\x7d \x7b\x7bten\x7b\x7bfilter:x\x7d\x7dant_id\x7d\x7d").data)
      [((("tenant_id").data), .vint 7), ((("x").data), .vnone)]
    = (((":tenant_id \x7b\x7btenant_id\x7d\x7d").data), [((("tenant_id").data), .vint 7)]) := by
  decide

/-- Truncation of a float-coercion result toward zero, as `int(float(x))`:
defined for finite values, raising (hence `none`) on non-finite ones. -/
def truncOfFloat : Option PyFloat → Option ℤ
  | some (.fin m e) => some (truncF m e)
  | some _ => none
  | none => none

/-- The values `_to_jsonable` returns unchanged: `None`, strings, ints and
finite floats. -/
def PlainVal : Val → Prop
  | .vnone => True
  | .vstr _ => True
  | .vint _ => True
  | .vfloat (.fin _ _) => True
  | _ => False

/-- No brace characters (the interior of a well-formed placeholder). -/
def BraceFree (s : List Char) : Prop :=
  ∀ c ∈ s, ¬ c = '\x7b' ∧ ¬ c = '\x7d'

instance (s : List Char) : Decidable (BraceFree s) := by
  unfold BraceFree; infer_instance

instance (s : List Char) : Decidable (NiceKey s) := by
  unfold NiceKey; infer_instance

instance (v : Val) : Decidable (PlainVal v) := by
  unfold PlainVal
  cases v with
  | vfloat f => cases f <;> infer_instance
  | vnone => infer_instance
  | vstr s => infer_instance
  | vint n => infer_instance
  | vdate d => infer_instance
  | vdt d => infer_instance

/-! ### List toolbox -/

theorem infix_of_pre {X Y : List Char} (h : X <+: Y) : X <:+: Y := by
  obtain ⟨r, hr⟩ := h
  exact ⟨[], r, by simpa using hr⟩

theorem infix_of_suffix {X Y : List Char} (h : X <:+ Y) : X <:+: Y := by
  obtain ⟨r, hr⟩ := h
  exact ⟨r, [], by simpa using hr⟩

theorem not_infix_of_mem_not_mem {q Y : List Char} {c : Char} (hc : c ∈ q) (hY : c ∉ Y) :
    ¬ q <:+: Y := fun h => hY (h.mem hc)

theorem not_infix_of_longer {q Y : List Char} (h : Y.length < q.length) : ¬ q <:+: Y :=
  fun hi => absurd hi.length_le (by omega)

theorem prefix_append_cases {l A B : List Char} (h : l <+: A ++ B) :
    l <+: A ∨ ∃ y, l = A ++ y ∧ y <+: B := by
  rcases List.prefix_or_prefix_of_prefix h (List.prefix_append A B) with h1 | h2
  · exact Or.inl h1
  · obtain ⟨y, rfl⟩ := h2
    exact Or.inr ⟨y, rfl, (List.prefix_append_right_inj A).mp h⟩

theorem infix_append_split {l A B : List Char} (h : l <:+: A ++ B) :
    l <:+: A ∨ l <:+: B ∨
      ∃ x y, l = x ++ y ∧ x ≠ [] ∧ y ≠ [] ∧ x <:+ A ∧ y <+: B := by
  induction A with
  | nil => exact Or.inr (Or.inl (by simpa using h))
  | cons a A' ih =>
    rw [List.cons_append] at h
    rcases List.infix_cons_iff.mp h with hpre | hinf
    · rcases List.prefix_cons_iff.mp hpre with rfl | ⟨t, rfl, ht⟩
      · exact Or.inl List.nil_infix
      · rcases prefix_append_cases ht with h1 | ⟨y, rfl, hy⟩
        · exact Or.inl (infix_of_pre (List.cons_prefix_cons.mpr ⟨rfl, h1⟩))
        · rcases List.eq_nil_or_concat y with rfl | _
          · exact Or.inl (by simp)
          · refine Or.inr (Or.inr ⟨a :: A', y, by simp, by simp, ?_, List.suffix_refl _, hy⟩)
            rename_i hy'
            rcases hy' with ⟨_, _, h⟩
            simp [h]
    · rcases ih hinf with h1 | h2 | ⟨x, y, rfl, hx, hy, hxa, hyb⟩
      · exact Or.inl (List.infix_cons h1)
      · exact Or.inr (Or.inl h2)
      · exact Or.inr (Or.inr ⟨x, y, rfl, hx, hy, hxa.trans (List.suffix_cons a A'), hyb⟩)

theorem heads_eq_of_prefix_rel {X Y : List Char} (h : X <+: Y ∨ Y <+: X)
    (hX : X ≠ []) (hY : Y ≠ []) : X.head? = Y.head? := by
  cases X with
  | nil => exact absurd rfl hX
  | cons x xs =>
    cases Y with
    | nil => exact absurd rfl hY
    | cons y ys =>
      rcases h with h | h
      · rcases List.cons_prefix_cons.mp h with ⟨rfl, -⟩; rfl
      · rcases List.cons_prefix_cons.mp h with ⟨rfl, -⟩; rfl

theorem head?_mem_of_ne_nil {X : List Char} {c : Char} (h : X.head? = some c) : c ∈ X := by
  cases X with
  | nil => simp at h
  | cons x xs => simp_all

theorem drop_head?_mem {X : List Char} {n : ℕ} {c : Char} (h : (X.drop n).head? = some c) :
    c ∈ X :=
  List.mem_of_mem_drop (head?_mem_of_ne_nil h)

/-! ### Equations for the replace model -/

theorem replaceAllF_congr :
    ∀ (f : ℕ) (s : List Char) (g : ℕ) (pat repl : List Char),
      s.length ≤ f → s.length ≤ g → replaceAllF f s pat repl = replaceAllF g s pat repl := by
  intro f
  induction f with
  | zero =>
    intro s g pat repl hf _
    have hs : s = [] := List.length_eq_zero.mp (Nat.le_zero.mp hf)
    subst hs
    cases g <;> simp [replaceAllF]
  | succ f ih =>
    intro s g pat repl hf hg
    cases s with
    | nil => cases g <;> simp [replaceAllF]
    | cons c rest =>
      cases g with
      | zero => simp at hg
      | succ g' =>
        simp only [replaceAllF]
        by_cases h : pat ≠ [] ∧ pat <+: (c :: rest)
        · rw [if_pos h, if_pos h]
          congr 1
          have hpat : 1 ≤ pat.length := by
            cases pat with
            | nil => exact absurd rfl h.1
            | cons _ _ => simp
          apply ih
          · simp only [List.length_drop, List.length_cons] at *
            omega
          · simp only [List.length_drop, List.length_cons] at *
            omega
        · rw [if_neg h, if_neg h]
          congr 1
          apply ih
          · simp only [List.length_cons] at hf; omega
          · simp only [List.length_cons] at hg; omega

theorem replaceAll_nil (pat repl : List Char) : replaceAll [] pat repl = [] := by
  simp [replaceAll, replaceAllF]

theorem replaceAll_pos {s pat : List Char} (repl : List Char) (hne : pat ≠ [])
    (h : pat <+: s) :
    replaceAll s pat repl = repl ++ replaceAll (s.drop pat.length) pat repl := by
  cases s with
  | nil =>
    have : pat = [] := List.eq_nil_of_prefix_nil h
    exact absurd this hne
  | cons c rest =>
    have hpat : 1 ≤ pat.length := by
      cases pat with
      | nil => exact absurd rfl hne
      | cons _ _ => simp
    show replaceAllF (rest.length + 1) (c :: rest) pat repl = _
    rw [show replaceAllF (rest.length + 1) (c :: rest) pat repl =
      repl ++ replaceAllF rest.length ((c :: rest).drop pat.length) pat repl by
        simp only [replaceAllF, if_pos (And.intro hne h)]]
    congr 1
    apply replaceAllF_congr
    · simp only [List.length_drop, List.length_cons]; omega
    · simp [List.length_drop]

theorem replaceAll_neg {c : Char} {rest pat : List Char} (repl : List Char)
    (h : ¬ pat <+: (c :: rest)) :
    replaceAll (c :: rest) pat repl = c :: replaceAll rest pat repl := by
  show replaceAllF (rest.length + 1) (c :: rest) pat repl = _
  simp only [replaceAllF]
  rw [if_neg (by tauto)]
  rfl


theorem getLast?_mem' : ∀ {X : List Char} {c : Char}, X.getLast? = some c → c ∈ X := by
  intro X
  induction X with
  | nil => intro c h; simp at h
  | cons a t ih =>
    intro c h
    cases t with
    | nil => simp_all
    | cons b t' =>
      rw [List.getLast?_cons_cons] at h
      exact List.mem_cons_of_mem a (ih h)

theorem suffix_getLast?_mem {x L : List Char} (h : x <:+ L) (hx : x ≠ []) {c : Char}
    (hc : L.getLast? = some c) : c ∈ x := by
  obtain ⟨w, rfl⟩ := h
  rw [List.getLast?_append] at hc
  cases hgx : x.getLast? with
  | none => exact absurd (List.getLast?_eq_none_iff.mp hgx) hx
  | some d =>
    rw [hgx] at hc
    simp only [Option.or_some] at hc
    cases hc
    exact getLast?_mem' hgx

/-- Walking a prefix of the replaced string back to the original: if the
replacement is non-empty and its first character does not occur in `q`,
any tail of `q` that is a prefix of `s.replace(pat, repl)` was already a
prefix of `s` at the same position. -/
theorem prefix_replaceAll_pullback (q pat : List Char) (r : Char) (rs : List Char)
    (hpat : pat ≠ []) (hr : r ∉ q) :
    ∀ (s : List Char) (k : ℕ), k < q.length →
      q.drop k <+: replaceAll s pat (r :: rs) → q.drop k <+: s := by
  intro s
  induction s with
  | nil =>
    intro k hk h
    rw [replaceAll_nil] at h
    have h0 : q.drop k = [] := List.eq_nil_of_prefix_nil h
    rw [List.drop_eq_nil_iff_le] at h0
    omega
  | cons c rest ih =>
    intro k hk h
    obtain ⟨d, ds, hd⟩ : ∃ d ds, q.drop k = d :: ds := by
      cases hq : q.drop k with
      | nil =>
        rw [List.drop_eq_nil_iff_le] at hq
        omega
      | cons d ds => exact ⟨d, ds, rfl⟩
    have hdq : d ∈ q := List.mem_of_mem_drop (by rw [hd]; exact List.mem_cons_self d ds)
    have hds : ds = q.drop (k + 1) := by
      have := congrArg (List.drop 1) hd
      rw [List.drop_drop] at this
      simpa using this.symm
    by_cases hp : pat <+: (c :: rest)
    · rw [replaceAll_pos _ hpat hp, hd, List.cons_append] at h
      rcases List.cons_prefix_cons.mp h with ⟨rfl, -⟩
      exact absurd hdq hr
    · rw [replaceAll_neg _ hp, hd] at h
      rcases List.cons_prefix_cons.mp h with ⟨rfl, hds'⟩
      rw [hd]
      by_cases hk1 : k + 1 < q.length
      · refine List.cons_prefix_cons.mpr ⟨rfl, ?_⟩
        have := ih (k + 1) hk1 (by rw [← hds]; exact hds')
        rw [← hds] at this
        exact this
      · have hnil : q.drop (k + 1) = [] := by
          rw [List.drop_eq_nil_iff_le]; omega
        rw [hds, hnil]
        exact List.cons_prefix_cons.mpr ⟨rfl, List.nil_prefix⟩

/-- Replacing a pattern never leaves an occurrence of that same pattern,
provided the pattern and the replacement share no first character and the
pattern is not embedded in the replacement. -/
theorem self_not_infix_replaceAll (p : Char) (ps : List Char) (r : Char) (rs : List Char)
    (hr : r ∉ (p :: ps)) (hp : p ∉ (r :: rs)) (hsub : ¬ (p :: ps) <:+: (r :: rs)) :
    ∀ (n : ℕ) (s : List Char), s.length ≤ n →
      ¬ (p :: ps) <:+: replaceAll s (p :: ps) (r :: rs) := by
  intro n
  induction n with
  | zero =>
    intro s hs
    have : s = [] := List.length_eq_zero.mp (Nat.le_zero.mp hs)
    subst this
    rw [replaceAll_nil]
    simp [List.infix_nil]
  | succ n ih =>
    intro s hs
    cases s with
    | nil =>
      rw [replaceAll_nil]
      simp [List.infix_nil]
    | cons c rest =>
      simp only [List.length_cons] at hs
      by_cases hpre : (p :: ps) <+: (c :: rest)
      · rw [replaceAll_pos _ (by simp) hpre]
        intro h
        rcases infix_append_split h with h1 | h2 | ⟨x, y, hxy, hx, hy, hxa, hyb⟩
        · exact hsub h1
        · refine ih _ ?_ h2
          simp only [List.length_drop, List.length_cons]
          omega
        · cases x with
          | nil => exact hx rfl
          | cons x0 xs =>
            have hx0 : x0 = p := by
              rw [List.cons_append] at hxy
              exact (List.cons.injEq _ _ _ _ ▸ hxy).1.symm ▸ rfl
            subst hx0
            exact hp (hxa.mem (List.mem_cons_self x0 xs))
      · rw [replaceAll_neg _ hpre]
        intro h
        rcases List.infix_cons_iff.mp h with h1 | h2
        · rcases List.cons_prefix_cons.mp h1 with ⟨rfl, hps⟩
          cases hps0 : ps with
          | nil =>
            rw [hps0] at hpre
            exact hpre (List.cons_prefix_cons.mpr ⟨rfl, List.nil_prefix⟩)
          | cons a as =>
            have hlt : 1 < (p :: ps).length := by simp [hps0]
            have := prefix_replaceAll_pullback (p :: ps) (p :: ps) r rs (by simp) hr
              rest 1 hlt (by simpa using hps)
            exact hpre (List.cons_prefix_cons.mpr ⟨rfl, by simpa using this⟩)
        · exact ih rest (by omega) h2

/-- Replacing `pat` by `repl` cannot create an occurrence of an unrelated
string `q`, provided `q` does not occur in the replacement, and the
replacement's first and last characters do not occur in `q`. -/
theorem not_infix_replaceAll (q pat : List Char) (r : Char) (rs : List Char) (rl : Char)
    (hq : q ≠ []) (hpat : pat ≠ []) (hr : r ∉ q) (hrl : (r :: rs).getLast? = some rl)
    (hrlq : rl ∉ q) (hsub : ¬ q <:+: (r :: rs)) :
    ∀ (n : ℕ) (s : List Char), s.length ≤ n → ¬ q <:+: s →
      ¬ q <:+: replaceAll s pat (r :: rs) := by
  intro n
  induction n with
  | zero =>
    intro s hs hqs
    have : s = [] := List.length_eq_zero.mp (Nat.le_zero.mp hs)
    subst this
    rw [replaceAll_nil]
    exact hqs
  | succ n ih =>
    intro s hs hqs
    cases s with
    | nil => rw [replaceAll_nil]; exact hqs
    | cons c rest =>
      simp only [List.length_cons] at hs
      have hqrest : ¬ q <:+: rest := fun hh => hqs (List.infix_cons hh)
      by_cases hpre : pat <+: (c :: rest)
      · rw [replaceAll_pos _ hpat hpre]
        intro h
        rcases infix_append_split h with h1 | h2 | ⟨x, y, hxy, hx, hy, hxa, hyb⟩
        · exact hsub h1
        · have hdq : ¬ q <:+: (c :: rest).drop pat.length :=
            fun hh => hqs (hh.trans (infix_of_suffix (List.drop_suffix _ _)))
          refine ih _ ?_ hdq h2
          have hp1 : 1 ≤ pat.length := List.length_pos.mpr hpat
          simp only [List.length_drop, List.length_cons]
          omega
        · have : rl ∈ x := suffix_getLast?_mem hxa hx hrl
          exact hrlq (by rw [hxy]; exact List.mem_append_left y this)
      · rw [replaceAll_neg _ hpre]
        intro h
        rcases List.infix_cons_iff.mp h with h1 | h2
        · cases hq0 : q with
          | nil => exact hq hq0
          | cons q0 qs =>
            rw [hq0] at h1
            rcases List.cons_prefix_cons.mp h1 with ⟨rfl, hqs'⟩
            cases hqs0 : qs with
            | nil =>
              apply hqs
              rw [hq0, hqs0]
              exact infix_of_pre (List.cons_prefix_cons.mpr ⟨rfl, List.nil_prefix⟩)
            | cons a as =>
              have hlt : 1 < q.length := by simp [hq0, hqs0]
              have hrq : r ∉ q := hr
              have := prefix_replaceAll_pullback q pat r rs hpat hrq rest 1 hlt
                (by rw [hq0]; simpa using hqs')
              apply hqs
              rw [hq0]
              apply infix_of_pre
              refine List.cons_prefix_cons.mpr ⟨rfl, ?_⟩
              rw [hq0] at this
              simpa using this
        · exact ih rest (by omega) hqrest h2

/-- Replacing a pattern that does not occur is the identity. -/
theorem replaceAll_of_not_infix :
    ∀ (s pat repl : List Char), ¬ pat <:+: s → replaceAll s pat repl = s := by
  intro s
  induction s with
  | nil => intro pat repl _; exact replaceAll_nil pat repl
  | cons c rest ih =>
    intro pat repl h
    have hpre : ¬ pat <+: (c :: rest) := fun hh => h (infix_of_pre hh)
    rw [replaceAll_neg _ hpre]
    rw [ih pat repl (fun hh => h (List.infix_cons hh))]

/-- If the pattern occurs, the replacement occurs in the result. -/
theorem repl_infix_replaceAll (pat repl : List Char) (hpat : pat ≠ []) :
    ∀ (n : ℕ) (s : List Char), s.length ≤ n → pat <:+: s →
      repl <:+: replaceAll s pat repl := by
  intro n
  induction n with
  | zero =>
    intro s hs h
    have : s = [] := List.length_eq_zero.mp (Nat.le_zero.mp hs)
    subst this
    rw [List.infix_nil] at h
    exact absurd h hpat
  | succ n ih =>
    intro s hs h
    cases s with
    | nil =>
      rw [List.infix_nil] at h
      exact absurd h hpat
    | cons c rest =>
      simp only [List.length_cons] at hs
      by_cases hpre : pat <+: (c :: rest)
      · rw [replaceAll_pos _ hpat hpre]
        exact infix_of_pre (List.prefix_append repl _)
      · rw [replaceAll_neg _ hpre]
        rcases List.infix_cons_iff.mp h with h1 | h2
        · exact absurd h1 hpre
        · exact List.infix_cons (ih rest (by omega) h2)

theorem infix_extend_left {X Y Z : List Char} (h : X <:+: Y) : X <:+: Z ++ Y := by
  obtain ⟨a, b, rfl⟩ := h
  exact ⟨Z ++ a, b, by simp⟩

theorem infix_extend_right {X Y Z : List Char} (h : X <:+: Y) : X <:+: Y ++ Z := by
  obtain ⟨a, b, rfl⟩ := h
  exact ⟨a, b ++ Z, by simp⟩

theorem head_ne_no_prefix_rel {X Y : List Char} (hX : X ≠ []) (hY : Y ≠ [])
    (h : X.head? ≠ Y.head?) : ¬ (X <+: Y) ∧ ¬ (Y <+: X) :=
  ⟨fun hh => h (heads_eq_of_prefix_rel (Or.inl hh) hX hY),
   fun hh => h (heads_eq_of_prefix_rel (Or.inr hh) hX hY)⟩

/-- A scan that can never match inside `T ++ m` while still inside `T`
copies `T` through unchanged. -/
theorem replaceAll_append_clean :
    ∀ (T m pat repl : List Char), pat ≠ [] →
      (∀ j, j < T.length → ¬ pat <+: (T.drop j ++ m)) →
      replaceAll (T ++ m) pat repl = T ++ replaceAll m pat repl := by
  intro T
  induction T with
  | nil => intro m pat repl _ _; simp
  | cons t T' ih =>
    intro m pat repl hpat hcl
    have h0 : ¬ pat <+: (t :: (T' ++ m)) := by
      have := hcl 0 (by simp)
      simpa using this
    have hih := ih m pat repl hpat (fun j hj => by
      have := hcl (j + 1) (by simp only [List.length_cons]; omega)
      simpa using this)
    rw [List.cons_append, replaceAll_neg _ h0, hih, List.cons_append]

/-- Occurrence survival: replacing a pattern that cannot overlap `T`
preserves every occurrence of `T`. -/
theorem infix_replaceAll_survives (pat T repl : List Char)
    (hco : CannotOverlap pat T) (hpat : pat ≠ []) (hT : T ≠ []) :
    ∀ (n : ℕ) (str : List Char), str.length ≤ n → T <:+: str →
      T <:+: replaceAll str pat repl := by
  obtain ⟨co1, co2, co3⟩ := hco
  intro n
  induction n with
  | zero =>
    intro str hs h
    have : str = [] := List.length_eq_zero.mp (Nat.le_zero.mp hs)
    subst this
    rw [List.infix_nil] at h
    exact absurd h hT
  | succ n ih =>
    intro str hs hTs
    by_cases hp : pat <+: str
    · obtain ⟨l, m, rfl⟩ := hTs
      have hp1 : 1 ≤ pat.length := List.length_pos.mpr hpat
      have hT1 : 1 ≤ T.length := List.length_pos.mpr hT
      have hl : pat.length ≤ l.length := by
        by_contra hlt
        push_neg at hlt
        have hlp : l <+: pat := by
          have hlstr : l <+: l ++ T ++ m := by
            rw [List.append_assoc]; exact List.prefix_append l (T ++ m)
          rcases List.prefix_or_prefix_of_prefix hlstr hp with h1 | h2
          · exact h1
          · have := h2.length_le
            omega
        obtain ⟨p', rfl⟩ := hlp
        have hp'ne : p' ≠ [] := by
          intro hh
          subst hh
          simp at hlt
        have hp' : p' <+: T ++ m := by
          have : l ++ p' <+: l ++ (T ++ m) := by
            rw [← List.append_assoc]; exact hp
          exact (List.prefix_append_right_inj l).mp this
        have hdropl : (l ++ p').drop l.length = p' := List.drop_left l p'
        rcases prefix_append_cases hp' with h1 | ⟨y, hy, -⟩
        · rcases List.eq_nil_or_concat l with rfl | hcat
          · exact (co3.1) (by simpa using h1)
          · have hj1 : 0 < l.length := by
              rcases hcat with ⟨a, b, rfl⟩; simp
            have hj2 : l.length < (l ++ p').length := by
              simp only [List.length_append]
              have := List.length_pos.mpr hp'ne
              omega
            exact ((co1 l.length hj1 hj2).1) (by rw [hdropl]; exact h1)
        · have hTp : T <+: p' := ⟨y, hy.symm⟩
          rcases List.eq_nil_or_concat l with rfl | hcat
          · exact (co3.2) (by simpa using hTp)
          · have hj1 : 0 < l.length := by
              rcases hcat with ⟨a, b, rfl⟩; simp
            have hj2 : l.length < (l ++ p').length := by
              simp only [List.length_append]
              have := List.length_pos.mpr hp'ne
              omega
            exact ((co1 l.length hj1 hj2).2) (by rw [hdropl]; exact hTp)
      rw [replaceAll_pos _ hpat hp]
      have hdrop : (l ++ T ++ m).drop pat.length = (l.drop pat.length) ++ T ++ m := by
        rw [List.append_assoc, List.drop_append_eq_append_drop,
          Nat.sub_eq_zero_of_le hl, List.drop_zero, List.append_assoc]
      have hlen : ((l ++ T ++ m).drop pat.length).length ≤ n := by
        simp only [List.length_drop, List.length_append] at *
        omega
      have := ih _ hlen (by rw [hdrop]; exact ⟨l.drop pat.length, m, rfl⟩)
      exact infix_extend_left this
    · obtain ⟨l, m, rfl⟩ := hTs
      cases l with
      | nil =>
        have hcl : ∀ j, j < T.length → ¬ pat <+: (T.drop j ++ m) := by
          intro j hj hpj
          rcases Nat.eq_zero_or_pos j with rfl | hj0
          · exact hp (by simpa using hpj)
          · rcases prefix_append_cases hpj with h1 | ⟨y, hy, -⟩
            · exact ((co2 j hj0 hj).2) h1
            · exact ((co2 j hj0 hj).1) ⟨y, hy.symm⟩
        rw [List.nil_append] at *
        rw [replaceAll_append_clean T m pat repl hpat hcl]
        exact infix_of_pre (List.prefix_append T _)
      | cons a l' =>
        have hp' : ¬ pat <+: (a :: (l' ++ T ++ m)) := by
          simpa using hp
        have heq : (a :: l') ++ T ++ m = a :: (l' ++ T ++ m) := by simp
        rw [heq, replaceAll_neg _ hp']
        have hlen : (l' ++ T ++ m).length ≤ n := by
          rw [heq] at hs
          simp only [List.length_cons] at hs
          omega
        exact List.infix_cons (ih _ hlen ⟨l', m, rfl⟩)

theorem cannotOverlap_of_heads (p : Char) (ps : List Char) (t : Char) (ts : List Char)
    (hpt : p ∉ (t :: ts)) (htp : t ∉ (p :: ps)) :
    CannotOverlap (p :: ps) (t :: ts) := by
  refine ⟨?_, ?_, ?_, ?_⟩
  · intro j hj0 hjlen
    have hXne : (p :: ps).drop j ≠ [] := by
      intro hh
      rw [List.drop_eq_nil_iff_le] at hh
      omega
    have hhd : ((p :: ps).drop j).head? ≠ (t :: ts).head? := by
      intro hh
      cases hX : ((p :: ps).drop j).head? with
      | none => exact hXne (List.head?_eq_none_iff.mp hX)
      | some c =>
        rw [hX] at hh
        have : c = t := by simpa using hh
        subst this
        exact htp (drop_head?_mem hX)
    exact head_ne_no_prefix_rel hXne (by simp) hhd
  · intro j hj0 hjlen
    have hXne : (t :: ts).drop j ≠ [] := by
      intro hh
      rw [List.drop_eq_nil_iff_le] at hh
      omega
    have hhd : ((t :: ts).drop j).head? ≠ (p :: ps).head? := by
      intro hh
      cases hX : ((t :: ts).drop j).head? with
      | none => exact hXne (List.head?_eq_none_iff.mp hX)
      | some c =>
        rw [hX] at hh
        have : c = p := by simpa using hh
        subst this
        exact hpt (drop_head?_mem hX)
    have := head_ne_no_prefix_rel hXne (show (p :: ps) ≠ [] by simp) hhd
    exact this
  · intro hh
    have := heads_eq_of_prefix_rel (Or.inl hh) (by simp) (by simp)
    simp only [List.head?_cons, Option.some.injEq] at this
    exact htp (this ▸ List.mem_cons_self p ps)
  · intro hh
    have := heads_eq_of_prefix_rel (Or.inl hh) (by simp) (by simp)
    simp only [List.head?_cons, Option.some.injEq] at this
    exact hpt (this ▸ List.mem_cons_self t ts)

theorem tok_tail_pre :
    ∀ (w u : List Char), BraceFree w → BraceFree u →
      (w ++ ['\x7d', '\x7d']) <+: (u ++ ['\x7d', '\x7d']) → w = u := by
  intro w
  induction w with
  | nil =>
    intro u _ hu h
    cases u with
    | nil => rfl
    | cons b u' =>
      rw [List.nil_append, List.cons_append] at h
      rcases List.cons_prefix_cons.mp h with ⟨hb, -⟩
      exact absurd hb.symm (hu b (List.mem_cons_self b u')).2
  | cons a w' ih =>
    intro u hw hu h
    cases u with
    | nil =>
      rw [List.cons_append, List.nil_append] at h
      rcases List.cons_prefix_cons.mp h with ⟨ha, h'⟩
      have : w' ++ ['\x7d', '\x7d'] <+: ['\x7d'] := h'
      have hlen := this.length_le
      simp at hlen
    | cons b u' =>
      rw [List.cons_append, List.cons_append] at h
      rcases List.cons_prefix_cons.mp h with ⟨hab, h'⟩
      have := ih u' (fun c hc => hw c (List.mem_cons_of_mem a hc))
        (fun c hc => hu c (List.mem_cons_of_mem b hc)) h'
      rw [hab, this]

theorem not_brace_head_drop {w : List Char} (hw : BraceFree w) {j : ℕ} {c : Char}
    (h : ((w ++ ['\x7d', '\x7d']).drop j).head? = some c) : ¬ c = '\x7b' := by
  have hc : c ∈ w ++ ['\x7d', '\x7d'] := drop_head?_mem h
  rcases List.mem_append.mp hc with h1 | h2
  · exact (hw c h1).1
  · intro hh
    subst hh
    simp at h2

/-- Two well-formed brace placeholders with different interiors can never
overlap. -/
theorem cannotOverlap_tokens (w u : List Char) (hwB : BraceFree w) (huB : BraceFree u)
    (hwne : w ≠ []) (hne : w ≠ u) :
    CannotOverlap ('\x7b' :: '\x7b' :: (w ++ ['\x7d', '\x7d']))
      ('\x7b' :: '\x7b' :: (u ++ ['\x7d', '\x7d'])) := by
  have hwcons : ∃ a w'', w = a :: w'' := by
    cases w with
    | nil => exact absurd rfl hwne
    | cons a w'' => exact ⟨a, w'', rfl⟩
  refine ⟨?_, ?_, ?_, ?_⟩
  · intro j hj0 hjlen
    rcases Nat.lt_or_ge j 2 with hj2 | hj2
    · have hj1 : j = 1 := by omega
      subst hj1
      constructor
      · intro h
        simp only [List.drop_succ_cons, List.drop_zero] at h
        rcases List.cons_prefix_cons.mp h with ⟨-, h'⟩
        obtain ⟨a, w'', rfl⟩ := hwcons
        rw [List.cons_append] at h'
        rcases List.cons_prefix_cons.mp h' with ⟨ha, -⟩
        exact (hwB a (List.mem_cons_self a w'')).1 ha
      · intro h
        simp only [List.drop_succ_cons, List.drop_zero] at h
        rcases List.cons_prefix_cons.mp h with ⟨-, h'⟩
        obtain ⟨a, w'', rfl⟩ := hwcons
        rw [List.cons_append] at h'
        rcases List.cons_prefix_cons.mp h' with ⟨ha, -⟩
        exact (hwB a (List.mem_cons_self a w'')).1 ha.symm
    · obtain ⟨j'', rfl⟩ : ∃ j'', j = j'' + 2 := ⟨j - 2, by omega⟩
      have hdrop : ('\x7b' :: '\x7b' :: (w ++ ['\x7d', '\x7d'])).drop (j'' + 2)
          = (w ++ ['\x7d', '\x7d']).drop j'' := by
        simp [List.drop_succ_cons]
      have hXne : (w ++ ['\x7d', '\x7d']).drop j'' ≠ [] := by
        intro hh
        rw [List.drop_eq_nil_iff_le] at hh
        simp only [List.length_cons, List.length_append, List.length_nil] at hjlen hh
        omega
      rw [hdrop]
      have hhd : ((w ++ ['\x7d', '\x7d']).drop j'').head?
          ≠ ('\x7b' :: '\x7b' :: (u ++ ['\x7d', '\x7d'])).head? := by
        intro hh
        cases hX : ((w ++ ['\x7d', '\x7d']).drop j'').head? with
        | none => exact hXne (List.head?_eq_none_iff.mp hX)
        | some c =>
          rw [hX] at hh
          have : c = '\x7b' := by simpa using hh
          exact not_brace_head_drop hwB hX this
      exact head_ne_no_prefix_rel hXne (by simp) hhd
  · intro j hj0 hjlen
    rcases Nat.lt_or_ge j 2 with hj2 | hj2
    · have hj1 : j = 1 := by omega
      subst hj1
      constructor
      · intro h
        simp only [List.drop_succ_cons, List.drop_zero] at h
        rcases List.cons_prefix_cons.mp h with ⟨-, h'⟩
        cases hu0 : u with
        | nil =>
          subst hu0
          rw [List.nil_append] at h'
          rcases List.cons_prefix_cons.mp h' with ⟨hb, -⟩
          simp at hb
        | cons b u'' =>
          subst hu0
          rw [List.cons_append] at h'
          rcases List.cons_prefix_cons.mp h' with ⟨hb, -⟩
          exact (huB b (List.mem_cons_self b u'')).1 hb
      · intro h
        simp only [List.drop_succ_cons, List.drop_zero] at h
        rcases List.cons_prefix_cons.mp h with ⟨-, h'⟩
        cases hu0 : u with
        | nil =>
          subst hu0
          rw [List.nil_append] at h'
          rcases List.cons_prefix_cons.mp h' with ⟨hb, -⟩
          simp at hb
        | cons b u'' =>
          subst hu0
          rw [List.cons_append] at h'
          rcases List.cons_prefix_cons.mp h' with ⟨hb, -⟩
          exact (huB b (List.mem_cons_self b u'')).1 hb.symm
    · obtain ⟨j'', rfl⟩ : ∃ j'', j = j'' + 2 := ⟨j - 2, by omega⟩
      have hdrop : ('\x7b' :: '\x7b' :: (u ++ ['\x7d', '\x7d'])).drop (j'' + 2)
          = (u ++ ['\x7d', '\x7d']).drop j'' := by
        simp [List.drop_succ_cons]
      have hXne : (u ++ ['\x7d', '\x7d']).drop j'' ≠ [] := by
        intro hh
        rw [List.drop_eq_nil_iff_le] at hh
        simp only [List.length_cons, List.length_append, List.length_nil] at hjlen hh
        omega
      rw [hdrop]
      have hhd : ((u ++ ['\x7d', '\x7d']).drop j'').head?
          ≠ ('\x7b' :: '\x7b' :: (w ++ ['\x7d', '\x7d'])).head? := by
        intro hh
        cases hX : ((u ++ ['\x7d', '\x7d']).drop j'').head? with
        | none => exact hXne (List.head?_eq_none_iff.mp hX)
        | some c =>
          rw [hX] at hh
          have : c = '\x7b' := by simpa using hh
          exact not_brace_head_drop huB hX this
      exact head_ne_no_prefix_rel hXne (by simp) hhd
  · intro h
    rcases List.cons_prefix_cons.mp h with ⟨-, h'⟩
    rcases List.cons_prefix_cons.mp h' with ⟨-, h''⟩
    exact hne (tok_tail_pre w u hwB huB h'')
  · intro h
    rcases List.cons_prefix_cons.mp h with ⟨-, h'⟩
    rcases List.cons_prefix_cons.mp h' with ⟨-, h''⟩
    exact hne (tok_tail_pre u w huB hwB h'').symm

theorem tokOf_shape (k : List Char) :
    tokOf k = '\x7b' :: '\x7b' :: ((("filter:").data ++ k) ++ ['\x7d', '\x7d']) := rfl

theorem tokOf_ne_nil (k : List Char) : tokOf k ≠ [] := by
  rw [tokOf_shape]; simp

theorem braceFree_filter_key {k : List Char} (hk : NiceKey k) :
    BraceFree (("filter:").data ++ k) := by
  intro c hc
  rcases List.mem_append.mp hc with h1 | h2
  · have hlit : ∀ c ∈ ("filter:").data, ¬ c = '\x7b' ∧ ¬ c = '\x7d' := by decide
    exact hlit c h1
  · exact ⟨(hk c h2).1, (hk c h2).2.1⟩

theorem co_tenant_tok {k : List Char} (hk : NiceKey k) : CannotOverlap tenantTok (tokOf k) := by
  have h1 : tenantTok = '\x7b' :: '\x7b' :: ((("tenant_id").data) ++ ['\x7d', '\x7d']) := by decide
  rw [h1, tokOf_shape]
  apply cannotOverlap_tokens
  · decide
  · exact braceFree_filter_key hk
  · decide
  · intro h
    have := congrArg List.head? h
    simp at this

theorem co_from_tok {k : List Char} (hk : NiceKey k) : CannotOverlap fromTok (tokOf k) := by
  have h1 : fromTok = '\x7b' :: '\x7b' :: ((("from").data) ++ ['\x7d', '\x7d']) := by decide
  rw [h1, tokOf_shape]
  apply cannotOverlap_tokens
  · decide
  · exact braceFree_filter_key hk
  · decide
  · intro h
    have := congrArg (fun l => l.tail.head?) h
    simp at this

theorem co_to_tok {k : List Char} (hk : NiceKey k) : CannotOverlap toTok (tokOf k) := by
  have h1 : toTok = '\x7b' :: '\x7b' :: ((("to").data) ++ ['\x7d', '\x7d']) := by decide
  rw [h1, tokOf_shape]
  apply cannotOverlap_tokens
  · decide
  · exact braceFree_filter_key hk
  · decide
  · intro h
    have := congrArg List.head? h
    simp at this

theorem co_date_tok {k : List Char} (hk : NiceKey k) : CannotOverlap dateTok (tokOf k) := by
  have h1 : dateTok = '\x7b' :: '\x7b' :: ((("date_field").data) ++ ['\x7d', '\x7d']) := by decide
  rw [h1, tokOf_shape]
  apply cannotOverlap_tokens
  · decide
  · exact braceFree_filter_key hk
  · decide
  · intro h
    have := congrArg List.head? h
    simp at this

theorem co_tok_tok {k' k : List Char} (hk' : NiceKey k') (hk : NiceKey k) (hne : k' ≠ k) :
    CannotOverlap (tokOf k') (tokOf k) := by
  rw [tokOf_shape, tokOf_shape]
  apply cannotOverlap_tokens
  · exact braceFree_filter_key hk'
  · exact braceFree_filter_key hk
  · simp
  · intro h
    exact hne (List.append_cancel_left h)

theorem tok_survives {pat repl str k : List Char} (hco : CannotOverlap pat (tokOf k))
    (hpat : pat ≠ []) (h : tokOf k <:+: str) : tokOf k <:+: replaceAll str pat repl :=
  infix_replaceAll_survives pat (tokOf k) repl hco hpat (tokOf_ne_nil k)
    str.length str le_rfl h

theorem tok_survives_range {filters : List (List Char × Val)} {key tok0 bound s k : List Char}
    (hco : CannotOverlap tok0 (tokOf k)) (h0 : tok0 ≠ [])
    (h : tokOf k <:+: s) : tokOf k <:+: (rangePass filters key tok0 bound s).1 := by
  rcases hl : filters.lookup key with _ | v
  · unfold rangePass
    rw [hl]
    exact tok_survives hco h0 h
  · unfold rangePass
    rw [hl]
    dsimp only
    by_cases hv : v = Val.vnone
    · rw [if_pos hv]
      exact tok_survives hco h0 h
    · rw [if_neg hv]
      exact tok_survives hco h0 h

theorem tok_survives_dateFieldPass {filters : List (List Char × Val)} {s k : List Char}
    (hk : NiceKey k) (h : tokOf k <:+: s) : tokOf k <:+: dateFieldPass filters s := by
  rcases hl : filters.lookup (("date_field").data) with _ | v
  · unfold dateFieldPass
    rw [hl]
    exact h
  · unfold dateFieldPass
    rw [hl]
    cases v with
    | vnone => exact h
    | vstr a => exact tok_survives (co_date_tok hk) (by decide) h
    | vint a => exact tok_survives (co_date_tok hk) (by decide) h
    | vfloat a => exact tok_survives (co_date_tok hk) (by decide) h
    | vdate a => exact tok_survives (co_date_tok hk) (by decide) h
    | vdt a => exact tok_survives (co_date_tok hk) (by decide) h

theorem clauseOf_shape (k : List Char) :
    clauseOf k = ' ' :: ((((("AND ").data ++ k) ++ (" = :").data) ++ k) ++ [' ']) := rfl

theorem clauseOf_concat (k : List Char) :
    clauseOf k = (((((" AND ").data ++ k) ++ (" = :").data) ++ k)) ++ [' '] := rfl

theorem clauseOf_ne_nil (k : List Char) : clauseOf k ≠ [] := by
  rw [clauseOf_shape]; simp

theorem mem_tok_cases {c : Char} {k : List Char} (h : c ∈ tokOf k) :
    c ∈ ("\x7b\x7bfilter:\x7d\x7d").data ∨ c ∈ k := by
  rw [tokOf_shape] at h
  rcases List.mem_cons.mp h with rfl | h
  · left; decide
  rcases List.mem_cons.mp h with rfl | h
  · left; decide
  rcases List.mem_append.mp h with h | h
  · rcases List.mem_append.mp h with h | h
    · left
      have hlit : ∀ x ∈ ("filter:").data, x ∈ ("\x7b\x7bfilter:\x7d\x7d").data := by decide
      exact hlit c h
    · exact Or.inr h
  · left
    have hlit : ∀ x ∈ ['\x7d', '\x7d'], x ∈ ("\x7b\x7bfilter:\x7d\x7d").data := by decide
    exact hlit c h

theorem mem_clause_cases {c : Char} {k : List Char} (h : c ∈ clauseOf k) :
    c ∈ (" AND = :").data ∨ c ∈ k := by
  rw [clauseOf_shape] at h
  rcases List.mem_cons.mp h with rfl | h
  · left; decide
  rcases List.mem_append.mp h with h | h
  · rcases List.mem_append.mp h with h | h
    · rcases List.mem_append.mp h with h | h
      · rcases List.mem_append.mp h with h | h
        · left
          have hlit : ∀ x ∈ ("AND ").data, x ∈ (" AND = :").data := by decide
          exact hlit c h
        · exact Or.inr h
      · left
        have hlit : ∀ x ∈ (" = :").data, x ∈ (" AND = :").data := by decide
        exact hlit c h
    · exact Or.inr h
  · left
    have hlit : ∀ x ∈ [' '], x ∈ (" AND = :").data := by decide
    exact hlit c h

theorem brace_not_mem_clause {k : List Char} (hk : NiceKey k) : '\x7b' ∉ clauseOf k := by
  intro h
  rcases mem_clause_cases h with h | h
  · revert h; decide
  · exact (hk _ h).1 rfl

theorem space_not_mem_tok {k : List Char} (hk : NiceKey k) : ' ' ∉ tokOf k := by
  intro h
  rcases mem_tok_cases h with h | h
  · revert h; decide
  · exact (hk _ h).2.2 rfl

theorem co_tok_clause {k'' k : List Char} (hk'' : NiceKey k'') (hk : NiceKey k) :
    CannotOverlap (tokOf k'') (clauseOf k) := by
  rw [tokOf_shape, clauseOf_shape]
  apply cannotOverlap_of_heads
  · rw [← clauseOf_shape]
    exact brace_not_mem_clause hk
  · rw [← tokOf_shape]
    exact space_not_mem_tok hk''

theorem clause_survives {pat repl str k : List Char} (hco : CannotOverlap pat (clauseOf k))
    (hpat : pat ≠ []) (h : clauseOf k <:+: str) : clauseOf k <:+: replaceAll str pat repl :=
  infix_replaceAll_survives pat (clauseOf k) repl hco hpat (clauseOf_ne_nil k)
    str.length str le_rfl h

theorem filterLoop_nil (s : List Char) (params : List (List Char × Val)) :
    filterLoop [] s params = (s, params) := rfl

/-- The token of a key that appears nowhere in `fs` survives the loop. -/
theorem filterLoop_tok_survive {k : List Char} (hk : NiceKey k) :
    ∀ (fs : List (List Char × Val)) (s : List Char) (params : List (List Char × Val)),
      (∀ kv ∈ fs, ¬ kv.1 ∈ reservedKeys → NiceKey kv.1) →
      (∀ kv ∈ fs, ¬ kv.1 = k) →
      tokOf k <:+: s → tokOf k <:+: (filterLoop fs s params).1 := by
  intro fs
  induction fs with
  | nil =>
    intro s params _ _ h
    rw [filterLoop_nil]
    exact h
  | cons kv rest ih =>
    obtain ⟨k', v'⟩ := kv
    intro s params hnice hne h
    have hnice' : ∀ kv ∈ rest, ¬ kv.1 ∈ reservedKeys → NiceKey kv.1 :=
      fun kv hm => hnice kv (List.mem_cons_of_mem _ hm)
    have hne' : ∀ kv ∈ rest, ¬ kv.1 = k :=
      fun kv hm => hne kv (List.mem_cons_of_mem _ hm)
    simp only [filterLoop]
    by_cases hres : k' ∈ [("from").data, ("to").data, ("tenant_id").data]
    · rw [if_pos hres]
      exact ih s params hnice' hne' h
    · rw [if_neg hres]
      have hk' : NiceKey k' :=
        hnice (k', v') (List.mem_cons_self _ _) (by simpa [reservedKeys] using hres)
      have hkk' : ¬ k' = k := hne (k', v') (List.mem_cons_self _ _)
      have hsurv : ∀ repl, tokOf k <:+: replaceAll s (tokOf k') repl :=
        fun repl => tok_survives (co_tok_tok hk' hk hkk') (tokOf_ne_nil k') h
      by_cases h1 : tokOf k' <:+: s ∧ ¬ v' = Val.vnone
      · rw [if_pos h1]
        exact ih _ _ hnice' hne' (hsurv _)
      · rw [if_neg h1]
        by_cases h2 : tokOf k' <:+: s
        · rw [if_pos h2]
          exact ih _ _ hnice' hne' (hsurv _)
        · rw [if_neg h2]
          exact ih _ _ hnice' hne' h

/-- An inserted clause of a brace- and space-free key survives the rest of
the loop. -/
theorem filterLoop_clause_survive {k : List Char} (hk : NiceKey k) :
    ∀ (fs : List (List Char × Val)) (s : List Char) (params : List (List Char × Val)),
      (∀ kv ∈ fs, ¬ kv.1 ∈ reservedKeys → NiceKey kv.1) →
      clauseOf k <:+: s → clauseOf k <:+: (filterLoop fs s params).1 := by
  intro fs
  induction fs with
  | nil =>
    intro s params _ h
    rw [filterLoop_nil]
    exact h
  | cons kv rest ih =>
    obtain ⟨k', v'⟩ := kv
    intro s params hnice h
    have hnice' : ∀ kv ∈ rest, ¬ kv.1 ∈ reservedKeys → NiceKey kv.1 :=
      fun kv hm => hnice kv (List.mem_cons_of_mem _ hm)
    simp only [filterLoop]
    by_cases hres : k' ∈ [("from").data, ("to").data, ("tenant_id").data]
    · rw [if_pos hres]
      exact ih s params hnice' h
    · rw [if_neg hres]
      have hk' : NiceKey k' :=
        hnice (k', v') (List.mem_cons_self _ _) (by simpa [reservedKeys] using hres)
      have hsurv : ∀ repl, clauseOf k <:+: replaceAll s (tokOf k') repl :=
        fun repl => clause_survives (co_tok_clause hk' hk) (tokOf_ne_nil k') h
      by_cases h1 : tokOf k' <:+: s ∧ ¬ v' = Val.vnone
      · rw [if_pos h1]
        exact ih _ _ hnice' (hsurv _)
      · rw [if_neg h1]
        by_cases h2 : tokOf k' <:+: s
        · rw [if_pos h2]
          exact ih _ _ hnice' (hsurv _)
        · rw [if_neg h2]
          exact ih _ _ hnice' h

/-- The loop only ever appends parameters; every appended key is a
non-reserved key of the iterated map. -/
theorem filterLoop_params_mono :
    ∀ (fs : List (List Char × Val)) (s : List Char) (params : List (List Char × Val)),
      ∃ extra, (filterLoop fs s params).2 = params ++ extra ∧
        ∀ kv ∈ extra, kv.1 ∈ fs.map Prod.fst ∧ ¬ kv.1 ∈ reservedKeys := by
  intro fs
  induction fs with
  | nil =>
    intro s params
    exact ⟨[], by simp [filterLoop_nil], by simp⟩
  | cons kv rest ih =>
    obtain ⟨k', v'⟩ := kv
    intro s params
    simp only [filterLoop]
    by_cases hres : k' ∈ [("from").data, ("to").data, ("tenant_id").data]
    · rw [if_pos hres]
      obtain ⟨e, he, hm⟩ := ih s params
      refine ⟨e, he, fun kv hkv => ?_⟩
      rw [List.map_cons]
      exact ⟨List.mem_cons.mpr (Or.inr (hm kv hkv).1), (hm kv hkv).2⟩
    · rw [if_neg hres]
      by_cases h1 : tokOf k' <:+: s ∧ ¬ v' = Val.vnone
      · rw [if_pos h1]
        obtain ⟨e, he, hm⟩ := ih (replaceAll s (tokOf k') (clauseOf k')) (params ++ [(k', v')])
        refine ⟨(k', v') :: e, by simpa using he, ?_⟩
        intro kv hkv
        rcases List.mem_cons.mp hkv with rfl | hkv'
        · rw [List.map_cons]
          exact ⟨List.mem_cons.mpr (Or.inl rfl), by simpa [reservedKeys] using hres⟩
        · rw [List.map_cons]
          exact ⟨List.mem_cons.mpr (Or.inr (hm kv hkv').1), (hm kv hkv').2⟩
      · rw [if_neg h1]
        by_cases h2 : tokOf k' <:+: s
        · rw [if_pos h2]
          obtain ⟨e, he, hm⟩ := ih (replaceAll s (tokOf k') []) params
          refine ⟨e, he, fun kv hkv => ?_⟩
          rw [List.map_cons]
          exact ⟨List.mem_cons.mpr (Or.inr (hm kv hkv).1), (hm kv hkv).2⟩
        · rw [if_neg h2]
          obtain ⟨e, he, hm⟩ := ih s params
          refine ⟨e, he, fun kv hkv => ?_⟩
          rw [List.map_cons]
          exact ⟨List.mem_cons.mpr (Or.inr (hm kv hkv).1), (hm kv hkv).2⟩

theorem filterLoop_append :
    ∀ (fs₁ fs₂ : List (List Char × Val)) (s : List Char) (params : List (List Char × Val)),
      filterLoop (fs₁ ++ fs₂) s params
        = filterLoop fs₂ (filterLoop fs₁ s params).1 (filterLoop fs₁ s params).2 := by
  intro fs₁
  induction fs₁ with
  | nil => intro fs₂ s params; rw [List.nil_append, filterLoop_nil]
  | cons kv rest ih =>
    obtain ⟨k', v'⟩ := kv
    intro fs₂ s params
    rw [List.cons_append]
    simp only [filterLoop]
    by_cases hres : k' ∈ [("from").data, ("to").data, ("tenant_id").data]
    · rw [if_pos hres, if_pos hres]
      exact ih fs₂ s params
    · rw [if_neg hres, if_neg hres]
      by_cases h1 : tokOf k' <:+: s ∧ ¬ v' = Val.vnone
      · rw [if_pos h1, if_pos h1]
        exact ih fs₂ _ _
      · rw [if_neg h1, if_neg h1]
        by_cases h2 : tokOf k' <:+: s
        · rw [if_pos h2, if_pos h2]
          exact ih fs₂ _ _
        · rw [if_neg h2, if_neg h2]
          exact ih fs₂ s params

theorem lookup_append_of_ne {p₁ p₂ : List (List Char × Val)} {key : List Char}
    (h : ∀ kv ∈ p₁, ¬ kv.1 = key) :
    (p₁ ++ p₂).lookup key = p₂.lookup key := by
  induction p₁ with
  | nil => simp
  | cons kv rest ih =>
    obtain ⟨k', v'⟩ := kv
    have hne : ¬ key = k' := fun hh => h (k', v') (List.mem_cons_self _ _) hh.symm
    have hbeq : (key == k') = false := by
      rw [beq_eq_false_iff_ne]
      exact hne
    rw [List.cons_append, List.lookup_cons, hbeq]
    exact ih (fun kv hm => h kv (List.mem_cons_of_mem _ hm))

theorem spacefree_split {q A B : List Char} (hsp : ' ' ∉ q)
    (h : q <:+: A ++ (' ' :: B)) : q <:+: A ∨ q <:+: B := by
  rcases infix_append_split h with h1 | h2 | ⟨x, y, hxy, hx, hy, hxa, hyb⟩
  · exact Or.inl h1
  · rcases List.infix_cons_iff.mp h2 with hp | hi
    · cases q with
      | nil => exact Or.inl List.nil_infix
      | cons q0 qs =>
        rcases List.cons_prefix_cons.mp hp with ⟨rfl, -⟩
        exact absurd (List.mem_cons_self _ _) hsp
    · exact Or.inr hi
  · cases y with
    | nil => exact absurd rfl hy
    | cons y0 ys =>
      rcases List.cons_prefix_cons.mp hyb with ⟨rfl, -⟩
      exact absurd (by rw [hxy]; exact List.mem_append_right x (List.mem_cons_self _ _)) hsp

/-- A space-free string that occurs neither in `AND`, `=`, nor in the key
cannot occur in the injected clause. -/
theorem not_infix_clause {q k : List Char} (hsp : ' ' ∉ q) (hq : q ≠ [])
    (hhd : ¬ q.head? = some ':') (hAND : ¬ q <:+: ("AND").data)
    (hEQ : ¬ q <:+: [('=')]) (hk : ¬ q <:+: k) : ¬ q <:+: clauseOf k := by
  intro h
  rw [clauseOf_concat] at h
  have h1 := spacefree_split hsp
    (show q <:+: (((((" AND ").data ++ k) ++ (" = :").data) ++ k)) ++ (' ' :: []) from h)
  rcases h1 with h1 | h1
  swap
  · rw [List.infix_nil] at h1; exact hq h1
  rw [List.append_assoc ((" AND ").data ++ k) ((" = :").data) k,
    List.append_assoc ((" AND ").data) k ((" = :").data ++ k)] at h1
  have h2 := spacefree_split hsp
    (show q <:+: [] ++ (' ' :: (("AND").data ++ (' ' :: (k ++ ((" = :").data ++ k)))))
      from h1)
  rcases h2 with h2 | h2
  · rw [List.infix_nil] at h2; exact hq h2
  have h3 := spacefree_split hsp h2
  rcases h3 with h3 | h3
  · exact hAND h3
  have h4 := spacefree_split hsp
    (show q <:+: k ++ (' ' :: ('=' :: (' ' :: (':' :: k)))) from h3)
  rcases h4 with h4 | h4
  · exact hk h4
  have h5 := spacefree_split hsp
    (show q <:+: [('=')] ++ (' ' :: (':' :: k)) from h4)
  rcases h5 with h5 | h5
  · exact hEQ h5
  rcases List.infix_cons_iff.mp h5 with hp | hi
  · cases q with
    | nil => exact hq rfl
    | cons q0 qs =>
      rcases List.cons_prefix_cons.mp hp with ⟨rfl, -⟩
      exact hhd rfl
  · exact hk hi

theorem lookup_cons_self {p : List (List Char × Val)} {key : List Char} {v : Val} :
    ((key, v) :: p).lookup key = some v := by
  rw [List.lookup_cons]
  have : (key == key) = true := beq_self_eq_true key
  rw [this]

theorem lookup_eq_none_of {p : List (List Char × Val)} {key : List Char}
    (h : ∀ kv ∈ p, ¬ kv.1 = key) : p.lookup key = none := by
  induction p with
  | nil => rfl
  | cons kv rest ih =>
    obtain ⟨k', v'⟩ := kv
    have hne : ¬ key = k' := fun hh => h (k', v') (List.mem_cons_self _ _) hh.symm
    have hbeq : (key == k') = false := by
      rw [beq_eq_false_iff_ne]
      exact hne
    rw [List.lookup_cons, hbeq]
    exact ih (fun kv hm => h kv (List.mem_cons_of_mem _ hm))

theorem rangePass_params_keys (filters : List (List Char × Val)) (key tok0 bound s : List Char) :
    ∀ kv ∈ (rangePass filters key tok0 bound s).2, kv.1 = key := by
  rcases hl : filters.lookup key with _ | v
  · unfold rangePass
    rw [hl]
    intro kv hkv
    simp at hkv
  · unfold rangePass
    rw [hl]
    dsimp only
    by_cases hv : v = Val.vnone
    · rw [if_pos hv]
      intro kv hkv
      simp at hkv
    · rw [if_neg hv]
      intro kv hkv
      simp only [List.mem_singleton] at hkv
      rw [hkv]

theorem key_infix_tok (k : List Char) : k <:+: tokOf k :=
  ⟨("\x7b\x7bfilter:").data, ("\x7d\x7d").data, rfl⟩

theorem dateFieldPass_absent {filters : List (List Char × Val)} (s : List Char)
    (h : filters.lookup (("date_field").data) = none) : dateFieldPass filters s = s := by
  unfold dateFieldPass
  rw [h]

/-- After the dedicated substitution pass, the text never contains the
tenant placeholder again. -/
theorem tenant_free_after_replace (t : List Char) :
    ¬ tenantTok <:+: replaceAll t tenantTok ((":tenant_id").data) :=
  self_not_infix_replaceAll '\x7b' (("\x7btenant_id\x7d\x7d").data) ':'
    (("tenant_id").data) (by decide) (by decide) (by decide) t.length t le_rfl

theorem tenant_free_fromPass {filters : List (List Char × Val)} {s : List Char}
    (h : ¬ tenantTok <:+: s) :
    ¬ tenantTok <:+: (rangePass filters (("from").data) fromTok ((":from").data) s).1 := by
  rcases hl : filters.lookup (("from").data) with _ | v
  · unfold rangePass
    rw [hl]
    exact not_infix_replaceAll tenantTok fromTok 'N' (("ULL").data) 'L' (by decide)
      (by decide) (by decide) (by decide) (by decide) (by decide) s.length s le_rfl h
  · unfold rangePass
    rw [hl]
    dsimp only
    by_cases hv : v = Val.vnone
    · rw [if_pos hv]
      exact not_infix_replaceAll tenantTok fromTok 'N' (("ULL").data) 'L' (by decide)
        (by decide) (by decide) (by decide) (by decide) (by decide) s.length s le_rfl h
    · rw [if_neg hv]
      exact not_infix_replaceAll tenantTok fromTok ':' (("from").data) 'm' (by decide)
        (by decide) (by decide) (by decide) (by decide) (by decide) s.length s le_rfl h

theorem tenant_free_toPass {filters : List (List Char × Val)} {s : List Char}
    (h : ¬ tenantTok <:+: s) :
    ¬ tenantTok <:+: (rangePass filters (("to").data) toTok ((":to").data) s).1 := by
  rcases hl : filters.lookup (("to").data) with _ | v
  · unfold rangePass
    rw [hl]
    exact not_infix_replaceAll tenantTok toTok 'N' (("ULL").data) 'L' (by decide)
      (by decide) (by decide) (by decide) (by decide) (by decide) s.length s le_rfl h
  · unfold rangePass
    rw [hl]
    dsimp only
    by_cases hv : v = Val.vnone
    · rw [if_pos hv]
      exact not_infix_replaceAll tenantTok toTok 'N' (("ULL").data) 'L' (by decide)
        (by decide) (by decide) (by decide) (by decide) (by decide) s.length s le_rfl h
    · rw [if_neg hv]
      exact not_infix_replaceAll tenantTok toTok ':' (("to").data) 'o' (by decide)
        (by decide) (by decide) (by decide) (by decide) (by decide) s.length s le_rfl h

/-- The loop keeps the text free of the tenant placeholder when every
non-reserved entry carries a non-null value (so no token is deleted and no
glueing can occur). -/
theorem filterLoop_tenant_free :
    ∀ (fs : List (List Char × Val)) (s : List Char) (params : List (List Char × Val)),
      (∀ kv ∈ fs, ¬ kv.1 ∈ reservedKeys → ¬ kv.2 = Val.vnone) →
      ¬ tenantTok <:+: s → ¬ tenantTok <:+: (filterLoop fs s params).1 := by
  intro fs
  induction fs with
  | nil =>
    intro s params _ h
    rw [filterLoop_nil]
    exact h
  | cons kv rest ih =>
    obtain ⟨k', v'⟩ := kv
    intro s params hval h
    have hval' : ∀ kv ∈ rest, ¬ kv.1 ∈ reservedKeys → ¬ kv.2 = Val.vnone :=
      fun kv hm => hval kv (List.mem_cons_of_mem _ hm)
    simp only [filterLoop]
    by_cases hres : k' ∈ [("from").data, ("to").data, ("tenant_id").data]
    · rw [if_pos hres]
      exact ih s params hval' h
    · rw [if_neg hres]
      have hv' : ¬ v' = Val.vnone :=
        hval (k', v') (List.mem_cons_self _ _) (by simpa [reservedKeys] using hres)
      by_cases h1 : tokOf k' <:+: s ∧ ¬ v' = Val.vnone
      · rw [if_pos h1]
        apply ih _ _ hval'
        have hclq : ¬ tenantTok <:+: clauseOf k' := by
          apply not_infix_clause (by decide) (by decide) (by decide)
            (by decide) (by decide)
          intro hik
          exact h ((hik.trans (key_infix_tok k')).trans h1.1)
        have hshape := clauseOf_shape k'
        rw [hshape]
        have hlast : (' ' :: ((((("AND ").data ++ k') ++ (" = :").data) ++ k') ++ [' '])).getLast?
            = some ' ' := by
          rw [← hshape, clauseOf_concat]
          exact List.getLast?_concat _
        apply not_infix_replaceAll tenantTok (tokOf k') ' '
          ((((("AND ").data ++ k') ++ (" = :").data) ++ k') ++ [' ']) ' '
          (by decide) (tokOf_ne_nil k') (by decide) hlast (by decide)
          (by rw [← hshape]; exact hclq) s.length s le_rfl h
      · rw [if_neg h1]
        have h2 : ¬ tokOf k' <:+: s := by
          intro hh
          exact h1 ⟨hh, hv'⟩
        rw [if_neg h2]
        exact ih s params hval' h

theorem prePass_tok_survive {k : List Char} (hk : NiceKey k) (sql : List Char)
    (filters : List (List Char × Val)) (h : tokOf k <:+: sql) :
    tokOf k <:+: (prePass sql filters).1 :=
  tok_survives_range (co_to_tok hk) (by decide)
    (tok_survives_range (co_from_tok hk) (by decide)
      (tok_survives_dateFieldPass hk (tok_survives (co_tenant_tok hk) (by decide) h)))

theorem prePass_params_keys (sql : List Char) (filters : List (List Char × Val)) :
    ∀ kv ∈ (prePass sql filters).2, kv.1 = ("from").data ∨ kv.1 = ("to").data := by
  intro kv hkv
  have hkv' : kv ∈
      (rangePass filters (("from").data) fromTok ((":from").data)
        (dateFieldPass filters (replaceAll sql tenantTok ((":tenant_id").data)))).2 ++
      (rangePass filters (("to").data) toTok ((":to").data)
        (rangePass filters (("from").data) fromTok ((":from").data)
          (dateFieldPass filters (replaceAll sql tenantTok ((":tenant_id").data)))).1).2 := hkv
  rcases List.mem_append.mp hkv' with h | h
  · exact Or.inl (rangePass_params_keys _ _ _ _ _ kv h)
  · exact Or.inr (rangePass_params_keys _ _ _ _ _ kv h)

theorem prePass_tenant_free (sql : List Char) (filters : List (List Char × Val))
    (hdf : filters.lookup (("date_field").data) = none) :
    ¬ tenantTok <:+: (prePass sql filters).1 := by
  have h1 := tenant_free_after_replace sql
  rw [← dateFieldPass_absent (replaceAll sql tenantTok ((":tenant_id").data)) hdf] at h1
  exact tenant_free_toPass (tenant_free_fromPass h1)

theorem lookup_append_general (p₁ p₂ : List (List Char × Val)) (key : List Char) :
    (p₁ ++ p₂).lookup key =
      match p₁.lookup key with
      | some v => some v
      | none => p₂.lookup key := by
  induction p₁ with
  | nil => simp
  | cons kv rest ih =>
    obtain ⟨k', v'⟩ := kv
    rw [List.cons_append, List.lookup_cons, List.lookup_cons]
    cases h : (key == k') with
    | true => rfl
    | false => exact ih

theorem addTenant_fst (filters : List (List Char × Val)) (r : List Char × List (List Char × Val)) :
    (addTenant filters r).1 = r.1 := by
  unfold addTenant
  rcases filters.lookup (("tenant_id").data) with _ | v <;> rfl

theorem addTenant_lookup_ne (filters : List (List Char × Val))
    (r : List Char × List (List Char × Val)) (k : List Char)
    (hk : ¬ k = ("tenant_id").data) :
    (addTenant filters r).2.lookup k = r.2.lookup k := by
  unfold addTenant
  rcases h : filters.lookup (("tenant_id").data) with _ | v
  · rfl
  · dsimp only
    rw [lookup_append_general]
    rcases h2 : r.2.lookup k with _ | w
    · have hbeq : (k == ("tenant_id").data) = false := by
        rw [beq_eq_false_iff_ne]
        exact hk
      rw [List.lookup_cons, hbeq]
      rfl
    · rfl

theorem addTenant_lookup_tenant (filters : List (List Char × Val))
    (r : List Char × List (List Char × Val)) (v : Val)
    (h : filters.lookup (("tenant_id").data) = some v)
    (hr : r.2.lookup (("tenant_id").data) = none) :
    (addTenant filters r).2.lookup (("tenant_id").data) = some v := by
  unfold addTenant
  rw [h]
  dsimp only
  rw [lookup_append_general, hr]
  exact lookup_cons_self

theorem brace_mem_tok (k : List Char) : '\x7b' ∈ tokOf k := by
  rw [tokOf_shape]
  exact List.mem_cons_self _ _

/-- When every remaining non-reserved entry is non-null, an eliminated
token cannot be glued back together by the rest of the loop. -/
theorem filterLoop_tok_free {k : List Char} (hk : NiceKey k) :
    ∀ (fs : List (List Char × Val)) (s : List Char) (params : List (List Char × Val)),
      (∀ kv ∈ fs, ¬ kv.1 ∈ reservedKeys → NiceKey kv.1) →
      (∀ kv ∈ fs, ¬ kv.1 ∈ reservedKeys → ¬ kv.2 = Val.vnone) →
      ¬ tokOf k <:+: s → ¬ tokOf k <:+: (filterLoop fs s params).1 := by
  intro fs
  induction fs with
  | nil =>
    intro s params _ _ h
    rw [filterLoop_nil]
    exact h
  | cons kv rest ih =>
    obtain ⟨k', v'⟩ := kv
    intro s params hnice hval h
    have hnice' : ∀ kv ∈ rest, ¬ kv.1 ∈ reservedKeys → NiceKey kv.1 :=
      fun kv hm => hnice kv (List.mem_cons_of_mem _ hm)
    have hval' : ∀ kv ∈ rest, ¬ kv.1 ∈ reservedKeys → ¬ kv.2 = Val.vnone :=
      fun kv hm => hval kv (List.mem_cons_of_mem _ hm)
    simp only [filterLoop]
    by_cases hres : k' ∈ [("from").data, ("to").data, ("tenant_id").data]
    · rw [if_pos hres]
      exact ih s params hnice' hval' h
    · rw [if_neg hres]
      have hk' : NiceKey k' :=
        hnice (k', v') (List.mem_cons_self _ _) (by simpa [reservedKeys] using hres)
      have hv' : ¬ v' = Val.vnone :=
        hval (k', v') (List.mem_cons_self _ _) (by simpa [reservedKeys] using hres)
      by_cases h1 : tokOf k' <:+: s ∧ ¬ v' = Val.vnone
      · rw [if_pos h1]
        apply ih _ _ hnice' hval'
        have hclq : ¬ tokOf k <:+: clauseOf k' :=
          not_infix_of_mem_not_mem (brace_mem_tok k) (brace_not_mem_clause hk')
        have hshape := clauseOf_shape k'
        rw [hshape]
        have hlast : (' ' :: ((((("AND ").data ++ k') ++ (" = :").data) ++ k') ++ [' '])).getLast?
            = some ' ' := by
          rw [← hshape, clauseOf_concat]
          exact List.getLast?_concat _
        apply not_infix_replaceAll (tokOf k) (tokOf k') ' '
          ((((("AND ").data ++ k') ++ (" = :").data) ++ k') ++ [' ']) ' '
          (tokOf_ne_nil k) (tokOf_ne_nil k') (space_not_mem_tok hk) hlast
          (space_not_mem_tok hk) (by rw [← hshape]; exact hclq) s.length s le_rfl h
      · rw [if_neg h1]
        have h2 : ¬ tokOf k' <:+: s := fun hh => h1 ⟨hh, hv'⟩
        rw [if_neg h2]
        exact ih s params hnice' hval' h

/-! ### Claim C10 -/

/-- C10, counterexample: the claim fails as stated.  For the filter key
`x\x7b\x7bfrom\x7d\x7dy` (non-null value `5`) and the text
`\x7b\x7bfilter:x\x7b\x7bfrom\x7d\x7dy\x7d\x7d`, the text does contain
the key's placeholder token, yet the expanded text does not contain
` AND x\x7b\x7bfrom\x7d\x7dy = :x\x7b\x7bfrom\x7d\x7dy `: the earlier
`\x7b\x7bfrom\x7d\x7d` → `NULL` substitution rewrites the token before the
filter loop can see it, and no parameter is bound. -/
theorem claim_C10_counterexample :
    tokOf (("x\x7b\x7bfrom\x7d\x7dy").data) <:+: (("\x7b\x7bfilter:x\x7b\x7bfrom\x7d\x7dy\x7d\x7d").data) ∧
    ¬ clauseOf (("x\x7b\x7bfrom\x7d\x7dy").data) <:+:
      (applyPlaceholders (("\x7b\x7bfilter:x\x7b\x7bfrom\x7d\x7dy\x7d\x7d").data)
        [((("tenant_id").data), Val.vint 1), ((("x\x7b\x7bfrom\x7d\x7dy").data), Val.vint 5)]).1 ∧
    (applyPlaceholders (("\x7b\x7bfilter:x\x7b\x7bfrom\x7d\x7dy\x7d\x7d").data)
        [((("tenant_id").data), Val.vint 1), ((("x\x7b\x7bfrom\x7d\x7dy").data), Val.vint 5)]).2.lookup
      (("x\x7b\x7bfrom\x7d\x7dy").data) = none := by
  decide

/-- C10 (amended): the verbatim splice holds for keys that cannot interact
with placeholder boundaries.  If every non-reserved key of the filter map
is free of braces and spaces, `k` is such a key, `(k, v)` is the first
entry of the map with key `k`, `v` is non-null, and the text contains
`\x7b\x7bfilter:k\x7d\x7d`, then the expanded text contains
` AND k = :k ` with `k` spliced in verbatim (no sanitization applied), and
the parameter map binds `k` to `v`. -/
theorem claim_C10_amended
    (t : List Char) (fs₁ fs₂ : List (List Char × Val)) (k : List Char) (v : Val)
    (hkres : ¬ k ∈ reservedKeys)
    (hnice : ∀ kv ∈ fs₁ ++ (k, v) :: fs₂, ¬ kv.1 ∈ reservedKeys → NiceKey kv.1)
    (hfirst : ∀ kv ∈ fs₁, ¬ kv.1 = k)
    (hv : ¬ v = Val.vnone)
    (htok : tokOf k <:+: t) :
    clauseOf k <:+: (applyPlaceholders t (fs₁ ++ (k, v) :: fs₂)).1 ∧
      (applyPlaceholders t (fs₁ ++ (k, v) :: fs₂)).2.lookup k = some v := by
  have hk : NiceKey k :=
    hnice (k, v) (List.mem_append_right _ (List.mem_cons_self _ _)) hkres
  have hnice₁ : ∀ kv ∈ fs₁, ¬ kv.1 ∈ reservedKeys → NiceKey kv.1 :=
    fun kv hm => hnice kv (List.mem_append_left _ hm)
  have hnice₂ : ∀ kv ∈ fs₂, ¬ kv.1 ∈ reservedKeys → NiceKey kv.1 :=
    fun kv hm => hnice kv (List.mem_append_right _ (List.mem_cons_of_mem _ hm))
  have hkres' : ¬ k ∈ [("from").data, ("to").data, ("tenant_id").data] := by
    simpa [reservedKeys] using hkres
  have hL1tok : tokOf k <:+:
      (filterLoop fs₁ (prePass t (fs₁ ++ (k, v) :: fs₂)).1
        (prePass t (fs₁ ++ (k, v) :: fs₂)).2).1 :=
    filterLoop_tok_survive hk fs₁ _ _ hnice₁ hfirst
      (prePass_tok_survive hk t _ htok)
  have happ : applyPlaceholders t (fs₁ ++ (k, v) :: fs₂)
      = addTenant (fs₁ ++ (k, v) :: fs₂)
          (filterLoop fs₂
            (replaceAll
              (filterLoop fs₁ (prePass t (fs₁ ++ (k, v) :: fs₂)).1
                (prePass t (fs₁ ++ (k, v) :: fs₂)).2).1
              (tokOf k) (clauseOf k))
            ((filterLoop fs₁ (prePass t (fs₁ ++ (k, v) :: fs₂)).1
                (prePass t (fs₁ ++ (k, v) :: fs₂)).2).2 ++ [(k, v)])) := by
    show addTenant _ (filterLoop (fs₁ ++ (k, v) :: fs₂) _ _) = _
    rw [filterLoop_append]
    congr 1
    simp only [filterLoop]
    rw [if_neg hkres', if_pos ⟨hL1tok, hv⟩]
  rw [happ]
  constructor
  · rw [addTenant_fst]
    exact filterLoop_clause_survive hk fs₂ _ _ hnice₂
      (repl_infix_replaceAll (tokOf k) (clauseOf k) (tokOf_ne_nil k) _ _ le_rfl hL1tok)
  · have hktennt : ¬ k = ("tenant_id").data := by
      intro hh
      apply hkres
      rw [hh]
      decide
    rw [addTenant_lookup_ne _ _ _ hktennt]
    obtain ⟨e2, he2, -⟩ := filterLoop_params_mono fs₂
      (replaceAll
        (filterLoop fs₁ (prePass t (fs₁ ++ (k, v) :: fs₂)).1
          (prePass t (fs₁ ++ (k, v) :: fs₂)).2).1
        (tokOf k) (clauseOf k))
      ((filterLoop fs₁ (prePass t (fs₁ ++ (k, v) :: fs₂)).1
          (prePass t (fs₁ ++ (k, v) :: fs₂)).2).2 ++ [(k, v)])
    rw [he2, List.append_assoc]
    have hkeys : ∀ kv ∈ (filterLoop fs₁ (prePass t (fs₁ ++ (k, v) :: fs₂)).1
        (prePass t (fs₁ ++ (k, v) :: fs₂)).2).2, ¬ kv.1 = k := by
      obtain ⟨e1, he1, hm1⟩ := filterLoop_params_mono fs₁
        (prePass t (fs₁ ++ (k, v) :: fs₂)).1 (prePass t (fs₁ ++ (k, v) :: fs₂)).2
      rw [he1]
      intro kv hkv
      rcases List.mem_append.mp hkv with h | h
      · rcases prePass_params_keys t _ kv h with h' | h'
        · rw [h']
          intro hh
          apply hkres
          rw [← hh]
          decide
        · rw [h']
          intro hh
          apply hkres
          rw [← hh]
          decide
      · obtain ⟨kv', hkv', hfst⟩ := List.mem_map.mp (hm1 kv h).1
        rw [← hfst]
        exact hfirst kv' hkv'
    rw [lookup_append_of_ne hkeys]
    exact lookup_cons_self

/-- C10, witness: the amended theorem applied to the key `uf` with value
`5` in a two-entry map. -/
theorem claim_C10_witness :
    clauseOf (("uf").data) <:+:
      (applyPlaceholders (("X \x7b\x7bfilter:uf\x7d\x7d Y").data)
        ([((("tenant_id").data), Val.vint 1)] ++ ((("uf").data), Val.vint 5) :: [])).1 ∧
    (applyPlaceholders (("X \x7b\x7bfilter:uf\x7d\x7d Y").data)
        ([((("tenant_id").data), Val.vint 1)] ++ ((("uf").data), Val.vint 5) :: [])).2.lookup
      (("uf").data) = some (Val.vint 5) :=
  claim_C10_amended (("X \x7b\x7bfilter:uf\x7d\x7d Y").data)
    [((("tenant_id").data), Val.vint 1)] [] (("uf").data) (Val.vint 5)
    (by decide) (by decide) (by decide) (by decide) (by decide)

theorem prefixParams_keys_ne {t : List Char} {filters fs₁ : List (List Char × Val)}
    {k : List Char} (hkres : ¬ k ∈ reservedKeys) (hfirst : ∀ kv ∈ fs₁, ¬ kv.1 = k) :
    ∀ kv ∈ (filterLoop fs₁ (prePass t filters).1 (prePass t filters).2).2, ¬ kv.1 = k := by
  obtain ⟨e1, he1, hm1⟩ := filterLoop_params_mono fs₁ (prePass t filters).1 (prePass t filters).2
  rw [he1]
  intro kv hkv
  rcases List.mem_append.mp hkv with h | h
  · rcases prePass_params_keys t _ kv h with h' | h'
    · rw [h']
      intro hh
      apply hkres
      rw [← hh]
      decide
    · rw [h']
      intro hh
      apply hkres
      rw [← hh]
      decide
  · obtain ⟨kv', hkv', hfst⟩ := List.mem_map.mp (hm1 kv h).1
    rw [← hfst]
    exact hfirst kv' hkv'

/-! ### Claim C3 -/

/-- C3, counterexample: the claim fails as stated.  With the key `uf`
absent from the filter map, the token `\x7b\x7bfilter:uf\x7d\x7d` is not
replaced with empty text — it is left in the output verbatim (the loop
iterates over map entries, so an absent key is never seen). -/
theorem claim_C3_counterexample :
    (applyPlaceholders (("A \x7b\x7bfilter:uf\x7d\x7d B").data)
        [((("tenant_id").data), Val.vint 1)]).1 = (("A \x7b\x7bfilter:uf\x7d\x7d B").data) ∧
    tokOf (("uf").data) <:+:
      (applyPlaceholders (("A \x7b\x7bfilter:uf\x7d\x7d B").data)
        [((("tenant_id").data), Val.vint 1)]).1 := by
  decide

/-- C3 (amended): over maps whose non-reserved keys are brace- and
space-free, (1) an entry `(k, v)` with non-null `v` whose token occurs in
the text, in a map whose other non-reserved values are non-null, gets its
token replaced by ` AND k = :k ` (the clause appears, the token is gone)
and `v` is bound under `k`; (2) an entry `(k, null)` never binds a
parameter under `k`; (3) a present-but-null key's token is removed
entirely, leaving no dangling AND clause (concrete instance).  An absent
key leaves its token in place (see the counterexample). -/
theorem claim_C3_amended :
    (∀ (t : List Char) (fs₁ fs₂ : List (List Char × Val)) (k : List Char) (v : Val),
      ¬ k ∈ reservedKeys →
      (∀ kv ∈ fs₁ ++ (k, v) :: fs₂, ¬ kv.1 ∈ reservedKeys → NiceKey kv.1) →
      (∀ kv ∈ fs₁ ++ (k, v) :: fs₂, ¬ kv.1 ∈ reservedKeys → ¬ kv.2 = Val.vnone) →
      (∀ kv ∈ fs₁, ¬ kv.1 = k) →
      tokOf k <:+: t →
      clauseOf k <:+: (applyPlaceholders t (fs₁ ++ (k, v) :: fs₂)).1 ∧
        ¬ tokOf k <:+: (applyPlaceholders t (fs₁ ++ (k, v) :: fs₂)).1 ∧
        (applyPlaceholders t (fs₁ ++ (k, v) :: fs₂)).2.lookup k = some v) ∧
    (∀ (t : List Char) (fs₁ fs₂ : List (List Char × Val)) (k : List Char),
      ¬ k ∈ reservedKeys →
      (∀ kv ∈ fs₁, ¬ kv.1 = k) →
      (∀ kv ∈ fs₂, ¬ kv.1 = k) →
      (applyPlaceholders t (fs₁ ++ (k, Val.vnone) :: fs₂)).2.lookup k = none) ∧
    applyPlaceholders (("A \x7b\x7bfilter:uf\x7d\x7d B").data)
        [((("tenant_id").data), Val.vint 1), ((("uf").data), Val.vnone)]
      = ((("A  B").data), [((("tenant_id").data), Val.vint 1)]) := by
  refine ⟨?_, ?_, by decide⟩
  · intro t fs₁ fs₂ k v hkres hnice hval hfirst htok
    have hk : NiceKey k :=
      hnice (k, v) (List.mem_append_right _ (List.mem_cons_self _ _)) hkres
    have hv : ¬ v = Val.vnone :=
      hval (k, v) (List.mem_append_right _ (List.mem_cons_self _ _)) hkres
    have hnice₁ : ∀ kv ∈ fs₁, ¬ kv.1 ∈ reservedKeys → NiceKey kv.1 :=
      fun kv hm => hnice kv (List.mem_append_left _ hm)
    have hnice₂ : ∀ kv ∈ fs₂, ¬ kv.1 ∈ reservedKeys → NiceKey kv.1 :=
      fun kv hm => hnice kv (List.mem_append_right _ (List.mem_cons_of_mem _ hm))
    have hval₂ : ∀ kv ∈ fs₂, ¬ kv.1 ∈ reservedKeys → ¬ kv.2 = Val.vnone :=
      fun kv hm => hval kv (List.mem_append_right _ (List.mem_cons_of_mem _ hm))
    have hkres' : ¬ k ∈ [("from").data, ("to").data, ("tenant_id").data] := by
      simpa [reservedKeys] using hkres
    have hL1tok : tokOf k <:+:
        (filterLoop fs₁ (prePass t (fs₁ ++ (k, v) :: fs₂)).1
          (prePass t (fs₁ ++ (k, v) :: fs₂)).2).1 :=
      filterLoop_tok_survive hk fs₁ _ _ hnice₁ hfirst
        (prePass_tok_survive hk t _ htok)
    have happ : applyPlaceholders t (fs₁ ++ (k, v) :: fs₂)
        = addTenant (fs₁ ++ (k, v) :: fs₂)
            (filterLoop fs₂
              (replaceAll
                (filterLoop fs₁ (prePass t (fs₁ ++ (k, v) :: fs₂)).1
                  (prePass t (fs₁ ++ (k, v) :: fs₂)).2).1
                (tokOf k) (clauseOf k))
              ((filterLoop fs₁ (prePass t (fs₁ ++ (k, v) :: fs₂)).1
                  (prePass t (fs₁ ++ (k, v) :: fs₂)).2).2 ++ [(k, v)])) := by
      show addTenant _ (filterLoop (fs₁ ++ (k, v) :: fs₂) _ _) = _
      rw [filterLoop_append]
      congr 1
      simp only [filterLoop]
      rw [if_neg hkres', if_pos ⟨hL1tok, hv⟩]
    rw [happ]
    refine ⟨?_, ?_, ?_⟩
    · rw [addTenant_fst]
      exact filterLoop_clause_survive hk fs₂ _ _ hnice₂
        (repl_infix_replaceAll (tokOf k) (clauseOf k) (tokOf_ne_nil k) _ _ le_rfl hL1tok)
    · rw [addTenant_fst]
      apply filterLoop_tok_free hk fs₂ _ _ hnice₂ hval₂
      have hclq : ¬ tokOf k <:+: clauseOf k :=
        not_infix_of_mem_not_mem (brace_mem_tok k) (brace_not_mem_clause hk)
      have hshape := clauseOf_shape k
      have htshape := tokOf_shape k
      rw [htshape, hshape]
      apply self_not_infix_replaceAll '\x7b'
        ('\x7b' :: ((("filter:").data ++ k) ++ ['\x7d', '\x7d'])) ' '
        ((((("AND ").data ++ k) ++ (" = :").data) ++ k) ++ [' '])
        (by rw [← htshape]; exact space_not_mem_tok hk)
        (by rw [← hshape]; exact brace_not_mem_clause hk)
        (by rw [← htshape, ← hshape]; exact hclq) _ _ le_rfl
    · have hktennt : ¬ k = ("tenant_id").data := by
        intro hh
        apply hkres
        rw [hh]
        decide
      rw [addTenant_lookup_ne _ _ _ hktennt]
      obtain ⟨e2, he2, -⟩ := filterLoop_params_mono fs₂
        (replaceAll
          (filterLoop fs₁ (prePass t (fs₁ ++ (k, v) :: fs₂)).1
            (prePass t (fs₁ ++ (k, v) :: fs₂)).2).1
          (tokOf k) (clauseOf k))
        ((filterLoop fs₁ (prePass t (fs₁ ++ (k, v) :: fs₂)).1
            (prePass t (fs₁ ++ (k, v) :: fs₂)).2).2 ++ [(k, v)])
      rw [he2, List.append_assoc]
      rw [lookup_append_of_ne (prefixParams_keys_ne hkres hfirst)]
      exact lookup_cons_self
  · intro t fs₁ fs₂ k hkres hfirst hlast
    have hkres' : ¬ k ∈ [("from").data, ("to").data, ("tenant_id").data] := by
      simpa [reservedKeys] using hkres
    have hktennt : ¬ k = ("tenant_id").data := by
      intro hh
      apply hkres
      rw [hh]
      decide
    have happ2 : ∃ s', applyPlaceholders t (fs₁ ++ (k, Val.vnone) :: fs₂)
        = addTenant (fs₁ ++ (k, Val.vnone) :: fs₂)
            (filterLoop fs₂ s'
              (filterLoop fs₁ (prePass t (fs₁ ++ (k, Val.vnone) :: fs₂)).1
                (prePass t (fs₁ ++ (k, Val.vnone) :: fs₂)).2).2) := by
      by_cases h2 : tokOf k <:+:
          (filterLoop fs₁ (prePass t (fs₁ ++ (k, Val.vnone) :: fs₂)).1
            (prePass t (fs₁ ++ (k, Val.vnone) :: fs₂)).2).1
      · refine ⟨replaceAll
          (filterLoop fs₁ (prePass t (fs₁ ++ (k, Val.vnone) :: fs₂)).1
            (prePass t (fs₁ ++ (k, Val.vnone) :: fs₂)).2).1 (tokOf k) [], ?_⟩
        show addTenant _ (filterLoop (fs₁ ++ (k, Val.vnone) :: fs₂) _ _) = _
        rw [filterLoop_append]
        congr 1
        simp only [filterLoop]
        rw [if_neg hkres']
        rw [if_neg (show ¬ (tokOf k <:+:
          (filterLoop fs₁ (prePass t (fs₁ ++ (k, Val.vnone) :: fs₂)).1
            (prePass t (fs₁ ++ (k, Val.vnone) :: fs₂)).2).1 ∧ ¬ True)
          from fun h => h.2 trivial)]
        rw [if_pos h2]
      · refine ⟨(filterLoop fs₁ (prePass t (fs₁ ++ (k, Val.vnone) :: fs₂)).1
            (prePass t (fs₁ ++ (k, Val.vnone) :: fs₂)).2).1, ?_⟩
        show addTenant _ (filterLoop (fs₁ ++ (k, Val.vnone) :: fs₂) _ _) = _
        rw [filterLoop_append]
        congr 1
        simp only [filterLoop]
        rw [if_neg hkres']
        rw [if_neg (show ¬ (tokOf k <:+:
          (filterLoop fs₁ (prePass t (fs₁ ++ (k, Val.vnone) :: fs₂)).1
            (prePass t (fs₁ ++ (k, Val.vnone) :: fs₂)).2).1 ∧ ¬ True)
          from fun h => h.2 trivial)]
        rw [if_neg h2]
    obtain ⟨s', happ2⟩ := happ2
    rw [happ2, addTenant_lookup_ne _ _ _ hktennt]
    obtain ⟨e2, he2, hm2⟩ := filterLoop_params_mono fs₂ s'
      (filterLoop fs₁ (prePass t (fs₁ ++ (k, Val.vnone) :: fs₂)).1
        (prePass t (fs₁ ++ (k, Val.vnone) :: fs₂)).2).2
    rw [he2]
    apply lookup_eq_none_of
    intro kv hkv
    rcases List.mem_append.mp hkv with h | h
    · exact prefixParams_keys_ne hkres hfirst kv h
    · obtain ⟨kv', hkv', hfst⟩ := List.mem_map.mp (hm2 kv h).1
      rw [← hfst]
      exact hlast kv' hkv'

/-- C3, witness: the non-null branch of the amended theorem at the key
`uf` with value `SP`. -/
theorem claim_C3_witness :
    clauseOf (("uf").data) <:+:
      (applyPlaceholders (("A \x7b\x7bfilter:uf\x7d\x7d B").data)
        ([((("tenant_id").data), Val.vint 1)] ++ ((("uf").data), Val.vstr (("SP").data)) :: [])).1 ∧
    ¬ tokOf (("uf").data) <:+:
      (applyPlaceholders (("A \x7b\x7bfilter:uf\x7d\x7d B").data)
        ([((("tenant_id").data), Val.vint 1)] ++ ((("uf").data), Val.vstr (("SP").data)) :: [])).1 ∧
    (applyPlaceholders (("A \x7b\x7bfilter:uf\x7d\x7d B").data)
        ([((("tenant_id").data), Val.vint 1)] ++ ((("uf").data), Val.vstr (("SP").data)) :: [])).2.lookup
      (("uf").data) = some (Val.vstr (("SP").data)) :=
  claim_C3_amended.1 (("A \x7b\x7bfilter:uf\x7d\x7d B").data)
    [((("tenant_id").data), Val.vint 1)] [] (("uf").data) (Val.vstr (("SP").data))
    (by decide) (by decide) (by decide) (by decide) (by decide)

/-! ### Claim C2 -/

/-- C2, counterexample: the claim fails as stated.  With the filter map
binding `tenant_id` to `7` and carrying a null-valued filter key `x`, the
text `\x7b\x7btenant_id\x7d\x7d \x7b\x7bten\x7b\x7bfilter:x\x7d\x7dant_id\x7d\x7d`
expands to a text that still contains the literal `\x7b\x7btenant_id\x7d\x7d`
token: removing the null filter token glues the surrounding characters into
a fresh tenant placeholder after the substitution pass has already run. -/
theorem claim_C2_counterexample :
    (([((("tenant_id").data), Val.vint 7), ((("x").data), Val.vnone)] :
        List (List Char × Val)).lookup (("tenant_id").data) = some (Val.vint 7)) ∧
    tenantTok <:+:
      (applyPlaceholders
        (("\x7b\x7btenant_id\x7d\x7d \x7b\x7bten\x7b\x7bfilter:x\x7d\x7dant_id\x7d\x7d").data)
        [((("tenant_id").data), Val.vint 7), ((("x").data), Val.vnone)]).1 := by
  decide

/-- C2 (amended): the tenant placeholder is replaced by the bound
parameter `:tenant_id` and the tenant value is passed through the
parameter map; the expanded text is guaranteed free of the literal token
whenever no other substitution can forge one — it suffices that the map
has no `date_field` entry and no null-valued non-reserved entry (a null
entry's token removal, or a crafted `date_field` value, can glue a new
`\x7b\x7btenant_id\x7d\x7d` into the text, see the counterexample).
The concrete conjunct is the spec's testable property for tenant
expansion. -/
theorem claim_C2_amended :
    (∀ (t : List Char) (filters : List (List Char × Val)) (v : Val),
      filters.lookup (("tenant_id").data) = some v →
      filters.lookup (("date_field").data) = none →
      (∀ kv ∈ filters, ¬ kv.1 ∈ reservedKeys → ¬ kv.2 = Val.vnone) →
      ¬ tenantTok <:+: (applyPlaceholders t filters).1 ∧
        (applyPlaceholders t filters).2.lookup (("tenant_id").data) = some v) ∧
    applyPlaceholders
        (("SELECT * FROM t WHERE organization_id=\x7b\x7btenant_id\x7d\x7d").data)
        [((("tenant_id").data), Val.vint 7)]
      = ((("SELECT * FROM t WHERE organization_id=:tenant_id").data),
         [((("tenant_id").data), Val.vint 7)]) := by
  refine ⟨?_, by decide⟩
  intro t filters v hlt hdf hval
  constructor
  · show ¬ tenantTok <:+:
      (addTenant filters
        (filterLoop filters (prePass t filters).1 (prePass t filters).2)).1
    rw [addTenant_fst]
    exact filterLoop_tenant_free filters _ _ hval (prePass_tenant_free t filters hdf)
  · apply addTenant_lookup_tenant filters _ v hlt
    obtain ⟨e, he, hm⟩ := filterLoop_params_mono filters (prePass t filters).1
      (prePass t filters).2
    rw [he]
    apply lookup_eq_none_of
    intro kv hkv
    rcases List.mem_append.mp hkv with h | h
    · rcases prePass_params_keys t filters kv h with h' | h'
      · rw [h']; decide
      · rw [h']; decide
    · intro hh
      apply (hm kv h).2
      rw [hh]
      decide

/-- C2, witness: the amended theorem applied to the spec's example query
with tenant id 7. -/
theorem claim_C2_witness :
    ¬ tenantTok <:+:
      (applyPlaceholders
        (("SELECT * FROM t WHERE organization_id=\x7b\x7btenant_id\x7d\x7d").data)
        [((("tenant_id").data), Val.vint 7)]).1 ∧
    (applyPlaceholders
        (("SELECT * FROM t WHERE organization_id=\x7b\x7btenant_id\x7d\x7d").data)
        [((("tenant_id").data), Val.vint 7)]).2.lookup (("tenant_id").data)
      = some (Val.vint 7) :=
  claim_C2_amended.1
    (("SELECT * FROM t WHERE organization_id=\x7b\x7btenant_id\x7d\x7d").data)
    [((("tenant_id").data), Val.vint 7)] (Val.vint 7)
    (by decide) (by decide) (by decide)

/-! ### Claim C1 -/

/-- C1: `is_safe_select(s)` is true exactly when, after stripping a leading
byte-order mark, surrounding whitespace and one trailing semicolon, the
lowercased text starts with `select` and contains none of the banned
substrings; and the three spec examples evaluate as claimed. -/
theorem claim_C1 :
    (∀ s : List Char, isSafeSelect s = true ↔ SafeSelectSpec s) ∧
    isSafeSelect (("SELECT 1").data) = true ∧
    isSafeSelect (("select * from x; drop table x").data) = false ∧
    isSafeSelect (("update x set y=1").data) = false := by
  refine ⟨?_, by decide, by decide, by decide⟩
  intro s
  show (if selectWord <+: lowerStr (specNormalize s) then
      decide (∀ b ∈ bannedToks, ¬ b <:+: lowerStr (specNormalize s))
    else false) = true ↔ SafeSelectSpec s
  by_cases hsel : selectWord <+: lowerStr (specNormalize s)
  · rw [if_pos hsel]
    unfold SafeSelectSpec
    simp [hsel]
  · rw [if_neg hsel]
    unfold SafeSelectSpec
    simp [hsel]

/-! ### Claim C4 -/

/-- C4: evaluation of the date coercion at the disputed inputs.  The
sentinel and the unambiguous day-first example behave as the claim says,
but the ambiguous `01/02/2023` parses month-first to January 2, 2023
(`dateutil.parser.parse` is called without `dayfirst`), not to
February 1, 2023 as the claim asserts. -/
theorem claim_C4_eval :
    toDt (.vstr (("01/02/2023").data)) = some ⟨2023, 1, 2, 0, 0, 0⟩ ∧
    ¬ toDt (.vstr (("01/02/2023").data)) = some ⟨2023, 2, 1, 0, 0, 0⟩ ∧
    toDt (.vstr (("31/12/2023").data)) = some ⟨2023, 12, 31, 0, 0, 0⟩ ∧
    toDt (.vstr (("nan").data)) = none ∧
    toDt (.vstr (("02/31/2023").data)) = none := by
  decide

/-! ### Claim C5 -/

/-- C5, counterexample: the string `inf` does not coerce to null — the
parsed non-finite value is returned as-is (the finiteness check applies
only to float inputs, not to parsed strings). -/
theorem claim_C5_counterexample :
    ¬ toFloat (.vstr (("inf").data)) = none ∧
    toFloat (.vstr (("inf").data)) = some PyFloat.inf := by
  decide

/-- C5 (amended): sentinel strings coerce to null; the thousands
normalization makes `1.234,56` and `1234.56` coerce to the same value
1234.56; a non-finite float input coerces to null; but a string that
parses to a non-finite value (such as `inf`) is returned as that value,
not null. -/
theorem claim_C5_amended :
    (∀ s : List Char, lowerStr (pyStrip s) ∈ sentinelStrs → toFloat (.vstr s) = none) ∧
    toFloat (.vfloat .nan) = none ∧
    toFloat (.vfloat .inf) = none ∧
    toFloat (.vfloat .ninf) = none ∧
    toFloat (.vstr (("inf").data)) = some PyFloat.inf ∧
    toFloat (.vstr (("1.234,56").data)) = some (.fin 123456 2) ∧
    toFloat (.vstr (("1234.56").data)) = some (.fin 123456 2) := by
  refine ⟨?_, rfl, rfl, rfl, by decide, by decide, by decide⟩
  intro s hs
  cases s with
  | nil => rfl
  | cons c cs =>
    show floatFromStr (c :: cs) = none
    simp only [floatFromStr]
    rw [if_pos hs]

/-- C5, witness: the sentinel conjunct of the amended theorem applied to
the string ` NaN `. -/
theorem claim_C5_witness : toFloat (.vstr ((" NaN ").data)) = none :=
  claim_C5_amended.1 ((" NaN ").data) (by decide)

/-! ### Claim C6 -/

/-- C6, counterexample: integer coercion is not float coercion followed by
truncation.  On `1234.56`, float coercion yields 1234.56 (truncating to
1234) while integer coercion removes every dot unconditionally and yields
123456. -/
theorem claim_C6_counterexample :
    ¬ toInt (.vstr (("1234.56").data))
      = truncOfFloat (toFloat (.vstr (("1234.56").data))) := by
  decide

/-- C6 (amended): integer coercion removes every dot unconditionally
before replacing the comma, so it agrees with truncation of the float
coercion exactly on strings whose stripped text has no dot or has exactly
one comma (where the two normalizations coincide); on a dotted string
without the thousands pattern they diverge: `1234.56` coerces to the
integer 123456. -/
theorem claim_C6_amended :
    (∀ s : List Char, (¬ '.' ∈ pyStrip s ∨ (pyStrip s).count ',' = 1) →
      toInt (.vstr s) = truncOfFloat (toFloat (.vstr s))) ∧
    toInt (.vstr (("1234.56").data)) = some 123456 ∧
    toInt (.vstr (("1.234,56").data)) = some 1234 ∧
    toFloat (.vstr (("1.234,56").data)) = some (.fin 123456 2) := by
  refine ⟨?_, by decide, by decide, by decide⟩
  intro s hs
  cases s with
  | nil => rfl
  | cons c cs =>
    show intFromStr (c :: cs) = truncOfFloat (floatFromStr (c :: cs))
    by_cases hsent : lowerStr (pyStrip (c :: cs)) ∈ sentinelStrs
    · simp only [intFromStr, floatFromStr]
      rw [if_pos hsent, if_pos hsent]
      rfl
    · simp only [intFromStr, floatFromStr]
      rw [if_neg hsent, if_neg hsent]
      by_cases hcd : ',' ∈ pyStrip (c :: cs) ∧ (pyStrip (c :: cs)).count ',' = 1 ∧
          '.' ∈ pyStrip (c :: cs)
      · rw [if_pos hcd]
        generalize parsePyFloat
          (((pyStrip (c :: cs)).filter (fun c => ¬ c = '.')).map
            (fun c => if c = ',' then '.' else c)) = r
        rcases r with _ | pf
        · rfl
        · cases pf <;> rfl
      · rw [if_neg hcd]
        have hdot : ¬ '.' ∈ pyStrip (c :: cs) := by
          rcases hs with h | h
          · exact h
          · intro hd
            exact hcd ⟨List.count_pos_iff_mem.mp (by omega), h, hd⟩
        have hfe : (pyStrip (c :: cs)).filter (fun c => ¬ c = '.') = pyStrip (c :: cs) :=
          List.filter_eq_self.mpr
            (fun a ha => decide_eq_true (fun he => hdot (he ▸ ha)))
        rw [hfe]
        generalize parsePyFloat
          ((pyStrip (c :: cs)).map (fun c => if c = ',' then '.' else c)) = r
        rcases r with _ | pf
        · rfl
        · cases pf <;> rfl

/-- C6, witness: the agreement conjunct of the amended theorem applied to
the one-comma string `12,5` (both sides yield 12). -/
theorem claim_C6_witness :
    toInt (.vstr (("12,5").data)) = truncOfFloat (toFloat (.vstr (("12,5").data))) :=
  claim_C6_amended.1 (("12,5").data) (by decide)

/-! ### Claim C8 -/

theorem toJsonable_plain {v : Val} (h : PlainVal v) : toJsonable v = v := by
  cases v with
  | vfloat f => cases f with
    | fin m e => rfl
    | inf => exact absurd h (by simp [PlainVal])
    | ninf => exact absurd h (by simp [PlainVal])
    | nan => exact absurd h (by simp [PlainVal])
  | vnone => rfl
  | vstr s => rfl
  | vint n => rfl
  | vdate d => exact absurd h (by simp [PlainVal])
  | vdt d => exact absurd h (by simp [PlainVal])

/-- C8, counterexample: the staged payload is not the raw row verbatim.
A row carrying a float `nan` is stored with that value replaced by null
(`_to_jsonable`), so not every key maps to its original value. -/
theorem claim_C8_counterexample :
    ¬ rowToJsonable [((("a").data), Val.vfloat .nan)] = [((("a").data), Val.vfloat .nan)] ∧
    (storeStaging [[((("a").data), Val.vfloat .nan)]] 5).1
      = [{ organization_id := 5, raw_json := [((("a").data), Val.vnone)] }] := by
  decide

/-- C8 (amended): `store_staging` persists one record per row and returns
the row count; the payload preserves every key in order, and every value of
a plain kind (null, string, int, finite float) verbatim; datetimes and
dates are converted to their ISO strings and non-finite floats to null. -/
theorem claim_C8_amended :
    (∀ (rows : List (List (List Char × Val))) (orgId : ℤ),
      (storeStaging rows orgId).2 = rows.length ∧
      (storeStaging rows orgId).1.length = rows.length) ∧
    (∀ row : List (List Char × Val), (rowToJsonable row).map Prod.fst = row.map Prod.fst) ∧
    (∀ row : List (List Char × Val), (∀ kv ∈ row, PlainVal kv.2) → rowToJsonable row = row) ∧
    (∀ d, toJsonable (.vdt d) = .vstr (isoOfDateTime d)) ∧
    (∀ d, toJsonable (.vdate d) = .vstr (isoOfDate d)) ∧
    toJsonable (.vfloat .nan) = .vnone ∧
    toJsonable (.vfloat .inf) = .vnone ∧
    toJsonable (.vfloat .ninf) = .vnone := by
  refine ⟨?_, ?_, ?_, fun d => rfl, fun d => rfl, rfl, rfl, rfl⟩
  · intro rows orgId
    exact ⟨rfl, by simp [storeStaging]⟩
  · intro row
    rw [rowToJsonable, List.map_map]
    rfl
  · intro row h
    induction row with
    | nil => rfl
    | cons kv rest ih =>
      show (kv.1, toJsonable kv.2) :: rowToJsonable rest = kv :: rest
      rw [toJsonable_plain (h kv (List.mem_cons_self _ _)),
        ih (fun kv hm => h kv (List.mem_cons_of_mem _ hm))]

/-- C8, witness: the plain-row conjunct of the amended theorem applied to
a concrete row of plain values. -/
theorem claim_C8_witness :
    rowToJsonable [((("a").data), Val.vint 3), ((("b").data), Val.vstr (("x").data))]
      = [((("a").data), Val.vint 3), ((("b").data), Val.vstr (("x").data))] :=
  claim_C8_amended.2.2.1 _ (by decide)

/-! ### Claim C9 -/

/-- C9: for every row in which no key, after normalization, matches an
alias of the target field, the canonical name itself, or the field's
heuristic substring rule, the header resolver `_find` returns null (and,
being a pure total function on the model, it neither raises nor mutates
its input). -/
theorem claim_C9 (row : List (List Char × Val)) (t : List Char)
    (h : ∀ kv ∈ row,
      ¬ (normKey kv.1 ∈ keymap t ∨ normKey kv.1 = t ∨ heurMatch t (normKey kv.1))) :
    find row t = Val.vnone := by
  have h1 : findP1 row t = none := by
    induction row with
    | nil => rfl
    | cons kv rest ih =>
      obtain ⟨k, v⟩ := kv
      have hh := h (k, v) (List.mem_cons_self _ _)
      simp only [findP1]
      rw [if_neg (fun hc => hh (hc.elim Or.inl (fun he => Or.inr (Or.inl he))))]
      exact ih (fun kv hm => h kv (List.mem_cons_of_mem _ hm))
  have h2 : findP2 row t = none := by
    clear h1
    induction row with
    | nil => rfl
    | cons kv rest ih =>
      obtain ⟨k, v⟩ := kv
      have hh := h (k, v) (List.mem_cons_self _ _)
      simp only [findP2]
      rw [if_neg (fun hc => hh (Or.inr (Or.inr hc)))]
      exact ih (fun kv hm => h kv (List.mem_cons_of_mem _ hm))
  unfold find
  rw [h1]
  dsimp only
  rw [h2]

/-- C9, witness: the resolver returns null on a row whose only key matches
nothing for the target field `uf`. -/
theorem claim_C9_witness :
    find [((("xyz").data), Val.vint 1)] (("uf").data) = Val.vnone :=
  claim_C9 [((("xyz").data), Val.vint 1)] (("uf").data) (by decide)

/-! ### Claim C7 -/

theorem chunksOfF_congr {α : Type} :
    ∀ (f : ℕ) (l : List α) (g n : ℕ), 1 ≤ n → l.length ≤ f → l.length ≤ g →
      chunksOfF f n l = chunksOfF g n l := by
  intro f
  induction f with
  | zero =>
    intro l g n hn hf hg
    have hl : l = [] := List.length_eq_zero.mp (Nat.le_zero.mp hf)
    subst hl
    cases g with
    | zero => rfl
    | succ g' => rfl
  | succ f ih =>
    intro l g n hn hf hg
    cases l with
    | nil =>
      cases g with
      | zero => rfl
      | succ g' => rfl
    | cons a l' =>
      cases g with
      | zero => exact absurd hg (by simp)
      | succ g' =>
        show (a :: l').take n :: chunksOfF f n ((a :: l').drop n)
            = (a :: l').take n :: chunksOfF g' n ((a :: l').drop n)
        congr 1
        simp only [List.length_cons] at hf hg
        apply ih
        · exact hn
        · rw [List.length_drop, List.length_cons]
          omega
        · rw [List.length_drop, List.length_cons]
          omega

theorem chunksOf_cons {α : Type} (n : ℕ) (hn : 1 ≤ n) (l : List α) (hl : l ≠ []) :
    chunksOf n l = l.take n :: chunksOf n (l.drop n) := by
  cases l with
  | nil => exact absurd rfl hl
  | cons a l' =>
    show (a :: l').take n :: chunksOfF l'.length n ((a :: l').drop n)
        = (a :: l').take n :: chunksOfF ((a :: l').drop n).length n ((a :: l').drop n)
    congr 1
    apply chunksOfF_congr
    · exact hn
    · rw [List.length_drop, List.length_cons]
      omega
    · exact le_rfl

theorem chunksOfF_mem_length {α : Type} (n : ℕ) :
    ∀ (f : ℕ) (l : List α), ∀ b ∈ chunksOfF f n l, b.length ≤ n := by
  intro f
  induction f with
  | zero =>
    intro l b hb
    simp [chunksOfF] at hb
  | succ f ih =>
    intro l b hb
    cases l with
    | nil => simp [chunksOfF] at hb
    | cons a l' =>
      rw [show chunksOfF (f + 1) n (a :: l')
          = (a :: l').take n :: chunksOfF f n ((a :: l').drop n) from rfl] at hb
      rcases List.mem_cons.mp hb with h | h
      · subst h
        rw [List.length_take]
        exact Nat.min_le_left _ _
      · exact ih _ b h

theorem chunksOf_len_4500 {α : Type} (l : List α) (hl : l.length = 4500) :
    (chunksOf 2000 l).map List.length = [2000, 2000, 500] := by
  have h1 : chunksOf 2000 l = l.take 2000 :: chunksOf 2000 (l.drop 2000) :=
    chunksOf_cons 2000 (by omega) l (by intro he; rw [he] at hl; simp at hl)
  have hd1 : (l.drop 2000).length = 2500 := by rw [List.length_drop, hl]
  have h2 : chunksOf 2000 (l.drop 2000)
      = (l.drop 2000).take 2000 :: chunksOf 2000 ((l.drop 2000).drop 2000) :=
    chunksOf_cons 2000 (by omega) _ (by intro he; rw [he] at hd1; simp at hd1)
  have hd2 : ((l.drop 2000).drop 2000).length = 500 := by rw [List.length_drop, hd1]
  have h3 : chunksOf 2000 ((l.drop 2000).drop 2000)
      = ((l.drop 2000).drop 2000).take 2000
        :: chunksOf 2000 (((l.drop 2000).drop 2000).drop 2000) :=
    chunksOf_cons 2000 (by omega) _ (by intro he; rw [he] at hd2; simp at hd2)
  have hd3 : ((l.drop 2000).drop 2000).drop 2000 = [] :=
    List.drop_eq_nil_of_le (by omega)
  rw [h1, h2, h3, hd3]
  rw [show chunksOf 2000 ([] : List α) = [] from rfl]
  simp only [List.map_cons, List.map_nil]
  rw [List.length_take, List.length_take, List.length_take, hl, hd1, hd2]
  decide

theorem matGo_eq (orgId : ℤ) (credor : Val) :
    ∀ (rows : List (List (List Char × Val))) (buf : List CuratedRec) (count : ℕ),
      buf.length < 2000 →
      matGo orgId credor rows buf count
        = (count + rows.length, chunksOf 2000 (buf ++ rows.map (buildCurated orgId credor))) := by
  intro rows
  induction rows with
  | nil =>
    intro buf count hbuf
    show (count, if buf = [] then [] else [buf]) = _
    rw [List.map_nil, List.append_nil, List.length_nil, Nat.add_zero]
    by_cases hb : buf = []
    · rw [if_pos hb, hb]
      rfl
    · rw [if_neg hb, chunksOf_cons 2000 (by omega) buf hb,
        List.take_of_length_le (Nat.le_of_lt hbuf),
        List.drop_eq_nil_of_le (Nat.le_of_lt hbuf)]
      rfl
  | cons r rs ih =>
    intro buf count hbuf
    simp only [matGo]
    by_cases hfull : 2000 ≤ (buf ++ [buildCurated orgId credor r]).length
    · rw [if_pos hfull]
      have hlen : (buf ++ [buildCurated orgId credor r]).length = 2000 := by
        have h1 : (buf ++ [buildCurated orgId credor r]).length = buf.length + 1 := by simp
        omega
      rw [ih [] (count + 1) (by simp)]
      dsimp only
      rw [List.nil_append, List.map_cons, List.length_cons]
      rw [show buf ++ buildCurated orgId credor r :: rs.map (buildCurated orgId credor)
          = (buf ++ [buildCurated orgId credor r]) ++ rs.map (buildCurated orgId credor)
          from by simp]
      rw [chunksOf_cons 2000 (by omega)
          ((buf ++ [buildCurated orgId credor r]) ++ rs.map (buildCurated orgId credor))
          (by simp)]
      rw [List.take_left' hlen, List.drop_left' hlen]
      rw [show count + 1 + rs.length = count + (rs.length + 1) from by omega]
    · rw [if_neg hfull]
      have hlt : (buf ++ [buildCurated orgId credor r]).length < 2000 := by
        have h1 : (buf ++ [buildCurated orgId credor r]).length = buf.length + 1 := by simp
        omega
      rw [ih _ (count + 1) hlt]
      rw [List.map_cons, List.length_cons, List.append_assoc, List.singleton_append]
      rw [show count + 1 + rs.length = count + (rs.length + 1) from by omega]

/-- C7: `materialize_curated` returns exactly the number of input rows, its
flushes each hold at most 2000 records, an empty input returns 0 with no
flush, and an input of 4500 rows performs exactly three flushes of sizes
2000, 2000 and 500. -/
theorem claim_C7 :
    (∀ (rows : List (List (List Char × Val))) (orgId : ℤ) (credor : Val),
      (materializeCurated rows orgId credor).1 = rows.length) ∧
    (∀ (rows : List (List (List Char × Val))) (orgId : ℤ) (credor : Val),
      ∀ b ∈ (materializeCurated rows orgId credor).2, b.length ≤ 2000) ∧
    (∀ (orgId : ℤ) (credor : Val), materializeCurated [] orgId credor = (0, [])) ∧
    (∀ (rows : List (List (List Char × Val))) (orgId : ℤ) (credor : Val),
      rows.length = 4500 →
      ((materializeCurated rows orgId credor).2).map List.length = [2000, 2000, 500]) := by
  refine ⟨?_, ?_, ?_, ?_⟩
  · intro rows orgId credor
    rw [show materializeCurated rows orgId credor = matGo orgId credor rows [] 0 from rfl,
      matGo_eq orgId credor rows [] 0 (by simp)]
    simp
  · intro rows orgId credor b hb
    rw [show materializeCurated rows orgId credor = matGo orgId credor rows [] 0 from rfl,
      matGo_eq orgId credor rows [] 0 (by simp)] at hb
    have hb' : b ∈ chunksOf 2000 ([] ++ rows.map (buildCurated orgId credor)) := hb
    exact chunksOfF_mem_length 2000 _ _ b hb'
  · intro orgId credor
    rfl
  · intro rows orgId credor h45
    have he := matGo_eq orgId credor rows [] 0 (by simp)
    rw [show materializeCurated rows orgId credor = matGo orgId credor rows [] 0 from rfl, he]
    show (chunksOf 2000 ([] ++ rows.map (buildCurated orgId credor))).map List.length = _
    rw [List.nil_append]
    exact chunksOf_len_4500 _ (by rw [List.length_map, h45])

/-- C7, witness: the 4500-row conjunct of the claim applied to 4500 empty
rows (flush sizes 2000, 2000, 500). -/
theorem claim_C7_witness :
    ((materializeCurated (List.replicate 4500 ([] : List (List Char × Val))) 1 Val.vnone).2).map
        List.length = [2000, 2000, 500] :=
  claim_C7.2.2.2 (List.replicate 4500 []) 1 Val.vnone (by rw [List.length_replicate])
